import Mathlib

/-!
Shallow embedding of the color-extraction clustering engine from
src/src/utils/colorExtractor.ts (class ColorExtractor), together with
proofs of the specified properties.

Machine numbers in the source are JS doubles, but every quantity the
clustering core manipulates is either an integer (channels, squared
distances, sums, sizes) or an exact ratio of such integers (means,
percentages, the uniform random draws).  We embed channels and squared
distances as ℤ, counts as ℕ, and the fractional quantities as ℚ.
Math.random() is modelled by an explicit tape of rationals in [0,1),
one entry per call, indexed in call order.
-/

/-- An RGB triple as the source stores it: `[r, g, b]` arrays of numbers.
Pixels and cluster centers both use this shape. -/
structure RGB where
  r : ℤ
  g : ℤ
  b : ℤ
  deriving DecidableEq, Repr, Inhabited

/-- `colorDistanceSq` from the source: squared Euclidean RGB distance. -/
def colorDistanceSq (c1 c2 : RGB) : ℤ :=
  (c1.r - c2.r) * (c1.r - c2.r) + (c1.g - c2.g) * (c1.g - c2.g) +
    (c1.b - c2.b) * (c1.b - c2.b)

/-- `Math.min(...centers.map(center => colorDistanceSq(p, center)))` for one
pixel.  The source call sites always pass a non-empty center list (the value
for `[]` is arbitrary). -/
def minDistTo (p : RGB) (centers : List RGB) : ℤ :=
  match centers with
  | [] => 0
  | c :: cs => cs.foldl (fun m c2 => min m (colorDistanceSq p c2)) (colorDistanceSq p c)

/-- `minDistancesToCenters` from the source. -/
def minDistancesToCenters (pixels centers : List RGB) : List ℤ :=
  pixels.map (fun p => minDistTo p centers)

/-- `Math.floor(t * n)` for a random draw `t` in `[0,1)`:
the uniform index used by the source's random pixel picks. -/
def jsFloorIdx (t : ℚ) (n : ℕ) : ℕ :=
  (Int.floor (t * n)).toNat

/-- The subtraction loop of `weightedRandomPick`: walk pixels and weights in
step, return the first pixel whose weight drives the running value `r`
non-positive; `none` when the loop falls through. -/
def pickGo : List RGB → List ℚ → ℚ → Option RGB
  | [], _, _ => none
  | _ :: _, [], _ => none
  | p :: ps, d :: ds, r => if r - d ≤ 0 then some p else pickGo ps ds (r - d)

/-- `pixels.at(-1) ?? pixels[0]`, the post-loop fallback of
`weightedRandomPick`. -/
def jsLast (pixels : List RGB) : RGB :=
  match pixels.getLast? with
  | some p => p
  | none => pixels.headD default

/-- `weightedRandomPick` from the source.  `t` is the `Math.random()` draw
this call consumes (each source branch consumes exactly one). -/
def weightedRandomPick (t : ℚ) (pixels : List RGB) (distances : List ℤ) : RGB :=
  let total : ℤ := distances.sum
  if total = 0 then
    pixels.getD (jsFloorIdx t pixels.length) default
  else
    match pickGo pixels (distances.map (fun d => (Int.cast d : ℚ))) (t * (total : ℚ)) with
    | some p => p
    | none => jsLast pixels

/-- The `for (let c = 1; c < k; c++)` loop of `kMeansPlusPlusInit`: push
`fuel` more centers onto `centers`, each via `weightedRandomPick`.  The
tape index equals `centers.length` because the first center consumed draw 0
and step `c` consumes draw `c`. -/
def initGo (tape : ℕ → ℚ) (pixels : List RGB) : ℕ → List RGB → List RGB
  | 0, centers => centers
  | fuel + 1, centers =>
      initGo tape pixels fuel
        (centers ++ [weightedRandomPick (tape centers.length) pixels
          (minDistancesToCenters pixels centers)])

/-- `kMeansPlusPlusInit` from the source: first center at a uniform random
index, then `k - 1` distance-weighted picks. -/
def kMeansPlusPlusInit (tape : ℕ → ℚ) (pixels : List RGB) (k : ℕ) : List RGB :=
  initGo tape pixels (k - 1)
    [pixels.getD (jsFloorIdx (tape 0) pixels.length) default]

/-- The inner `for (let i = 0; i < k; i++)` of `assignPixelsToCenters`:
`i` is the index about to be examined, `best` the current `closest`, and
`bestD` the current `minDistSq`. -/
def closestAux (p : RGB) : List RGB → ℕ → ℕ → ℤ → ℕ
  | [], _, best, _ => best
  | c :: cs, i, best, bestD =>
      if colorDistanceSq p c < bestD then closestAux p cs (i + 1) i (colorDistanceSq p c)
      else closestAux p cs (i + 1) best bestD

/-- The per-pixel argmin of `assignPixelsToCenters`: `minDistSq` starts at
`Infinity`, so the first center always wins the first comparison; ties are
broken toward the lowest index by the strict `<`. -/
def closestCenter (p : RGB) (centers : List RGB) : ℕ :=
  match centers with
  | [] => 0
  | c :: cs => closestAux p cs 1 0 (colorDistanceSq p c)

/-- `clusterSizes[closest]++`. -/
def bump (l : List ℕ) (i : ℕ) : List ℕ :=
  l.set i (l.getD i 0 + 1)

/-- `assignPixelsToCenters` from the source: the assignment list and the
cluster-size counters accumulated over the pixels. -/
def assignPixelsToCenters (pixels centers : List RGB) (k : ℕ) : List ℕ × List ℕ :=
  let asg := pixels.map (fun p => closestCenter p centers)
  (asg, asg.foldl bump (List.replicate k 0))

/-- Componentwise sum of two RGB triples (the `sums[c][ch] += pixel[ch]`
accumulation). -/
def addRGB (a p : RGB) : RGB :=
  ⟨a.r + p.r, a.g + p.g, a.b + p.b⟩

/-- One accumulation step of `updateCenters`: add pixel `p` into slot `i`
of the sums. -/
def addAt (sums : List RGB) (i : ℕ) (p : RGB) : List RGB :=
  sums.set i (addRGB (sums.getD i default) p)

/-- JS `Math.round`: round half toward positive infinity. -/
def jsRound (q : ℚ) : ℤ :=
  Int.floor (q + 1 / 2)

/-- Per-channel rounded mean `Math.round(sum[ch] / size)`. -/
def roundedMean (sum : RGB) (size : ℕ) : RGB :=
  ⟨jsRound ((sum.r : ℚ) / (size : ℚ)), jsRound ((sum.g : ℚ) / (size : ℚ)),
    jsRound ((sum.b : ℚ) / (size : ℚ))⟩

/-- `updateCenters` from the source: accumulate per-cluster channel sums,
then map each cluster to its rounded mean when populated, or to its old
center when empty. -/
def updateCenters (pixels : List RGB) (assignments : List ℕ) (clusterSizes : List ℕ)
    (oldCenters : List RGB) (k : ℕ) : List RGB :=
  let sums := (pixels.zip assignments).foldl (fun s pa => addAt s pa.2 pa.1)
    (List.replicate k (⟨0, 0, 0⟩ : RGB))
  sums.enum.map (fun is =>
    if 0 < clusterSizes.getD is.1 0 then roundedMean is.2 (clusterSizes.getD is.1 0)
    else oldCenters.getD is.1 default)

/-- The convergence test `centers.every((c, i) =>
colorDistanceSq(c, newCenters[i]) <= CONVERGE_THRESHOLD_SQ)` with
threshold 25. -/
def centersConverged (oldC newC : List RGB) : Bool :=
  (oldC.zip newC).all (fun pr => decide (colorDistanceSq pr.1 pr.2 ≤ 25))

/-- The `for (let iteration = 0; ...)` loop of `kMeansClustering`, as fuel
recursion.  Returns the final centers, the last cluster sizes, and the
number of assignment/update pairs performed. -/
def kMeansLoop (pixels : List RGB) (k : ℕ) : ℕ → List RGB → List ℕ → List RGB × List ℕ × ℕ
  | 0, centers, sizes => (centers, sizes, 0)
  | fuel + 1, centers, _ =>
      let ar := assignPixelsToCenters pixels centers k
      let newC := updateCenters pixels ar.1 ar.2 centers k
      if centersConverged centers newC then (newC, ar.2, 1)
      else
        let rest := kMeansLoop pixels k fuel newC ar.2
        (rest.1, rest.2.1, rest.2.2 + 1)

/-- One assignment/update pair (the loop body of `kMeansClustering`). -/
def stepCenters (pixels : List RGB) (k : ℕ) (centers : List RGB) : List RGB :=
  let ar := assignPixelsToCenters pixels centers k
  updateCenters pixels ar.1 ar.2 centers k

/-- The cluster sizes produced by assigning `pixels` to `centers`. -/
def sizesAt (pixels : List RGB) (k : ℕ) (centers : List RGB) : List ℕ :=
  (assignPixelsToCenters pixels centers k).2

/-- Whether one further assignment/update pair from `centers` meets the
convergence threshold. -/
def convergesNow (pixels : List RGB) (k : ℕ) (centers : List RGB) : Bool :=
  centersConverged centers (stepCenters pixels k centers)

/-- A center paired with its cluster's percentage share, the element shape
`{ color, percentage }` built at the end of `kMeansClustering`. -/
structure ClusterShare where
  color : RGB
  percentage : ℚ
  deriving DecidableEq, Repr

/-- The comparator `(a, b) => b.percentage - a.percentage` as the ordering
it induces: `a` may precede `b` when `b.percentage ≤ a.percentage`. -/
def percentGE (a b : ClusterShare) : Bool :=
  decide (b.percentage ≤ a.percentage)

/-- The ranking tail of `kMeansClustering`: pair each center with its
cluster's share of the pixels and sort descending by percentage
(`Array.prototype.sort` is stable, as is `List.mergeSort`). -/
def rankClusters (centers : List RGB) (clusterSizes : List ℕ) (pixelCount : ℕ) :
    List ClusterShare :=
  (centers.enum.map (fun ic =>
    (⟨ic.2, ((clusterSizes.getD ic.1 0 : ℚ) / (pixelCount : ℚ)) * 100⟩ : ClusterShare))).mergeSort
    percentGE

/-- `kMeansClustering` from the source. -/
def kMeansClustering (tape : ℕ → ℚ) (pixels : List RGB) (k0 maxIterations : ℕ) :
    List ClusterShare :=
  if pixels = [] then []
  else
    let k := min k0 pixels.length
    let c0 := kMeansPlusPlusInit tape pixels k
    let res := kMeansLoop pixels k maxIterations c0 []
    rankClusters res.1 res.2.1 pixels.length

/-- `x.toString(16)` for a natural number: lowercase hex digits. -/
def hexDigits (n : ℕ) : String :=
  String.mk (Nat.toDigits 16 n)

/-- `x.toString(16)` for an integer channel value. -/
def jsToStringHex (x : ℤ) : String :=
  if x < 0 then "-" ++ hexDigits (-x).toNat else hexDigits x.toNat

/-- `.padStart(2, "0")`. -/
def padStart2 (s : String) : String :=
  String.mk (List.replicate (2 - s.length) '0' ++ s.data)

/-- `rgbToHex` from the source. -/
def rgbToHex (r g b : ℤ) : String :=
  "#" ++ padStart2 (jsToStringHex r) ++ padStart2 (jsToStringHex g) ++
    padStart2 (jsToStringHex b)

/-- The template literal `rgb(r, g, b)` used by `extractColors`. -/
def rgbString (r g b : ℤ) : String :=
  "rgb(" ++ toString r ++ ", " ++ toString g ++ ", " ++ toString b ++ ")"

/-- `x.toFixed(1)`: one decimal digit, nearest value, ties toward the
larger candidate (the ECMAScript rule). -/
def toFixed1 (q : ℚ) : String :=
  let n : ℤ := Int.floor (q * 10 + 1 / 2)
  let a : ℕ := n.natAbs
  (if n < 0 then "-" else "") ++ toString (a / 10) ++ "." ++ toString (a % 10)

/-- `ColorResult` from the source. -/
structure ColorResult where
  hex : String
  rgb : String
  r : ℤ
  g : ℤ
  b : ℤ
  percentage : String
  deriving DecidableEq, Repr

/-- The formatting map at the end of `extractColors`. -/
def formatResults (items : List ClusterShare) : List ColorResult :=
  items.map (fun it =>
    ⟨rgbToHex it.color.r it.color.g it.color.b,
      rgbString it.color.r it.color.g it.color.b,
      it.color.r, it.color.g, it.color.b,
      toFixed1 it.percentage⟩)

/-- The pixel-buffer-to-color-list pipeline of `extractColors`: clustering
followed by formatting (the canvas sampling that produces `pixels` is the
excluded acquisition layer). -/
def extractColorsCore (tape : ℕ → ℚ) (pixels : List RGB) (colorCount maxIterations : ℕ) :
    List ColorResult :=
  formatResults (kMeansClustering tape pixels colorCount maxIterations)

/-- Every `Math.random()` result lies in `[0, 1)`. -/
def validTape (tape : ℕ → ℚ) : Prop :=
  ∀ n, 0 ≤ tape n ∧ tape n < 1

/-- A well-formed 8-bit channel triple. -/
def inRange (p : RGB) : Prop :=
  0 ≤ p.r ∧ p.r ≤ 255 ∧ 0 ≤ p.g ∧ p.g ≤ 255 ∧ 0 ≤ p.b ∧ p.b ≤ 255

/-- Squared distance from pixel `p` to the `j`-th center. -/
def distAt (p : RGB) (centers : List RGB) (j : ℕ) : ℤ :=
  colorDistanceSq p (centers.getD j default)

/-- The pixels the assignment mapping sends to cluster `i`. -/
def assignedPixels (pixels : List RGB) (asg : List ℕ) (i : ℕ) : List RGB :=
  ((pixels.zip asg).filter (fun pa => pa.2 == i)).map (fun pa => pa.1)

/-- Per-channel sums of a pixel list. -/
def channelSums (l : List RGB) : RGB :=
  ⟨(l.map RGB.r).sum, (l.map RGB.g).sum, (l.map RGB.b).sum⟩

/-- Integer form of `roundedMean`: for `size > 0`,
`Math.round(sum/size) = ⌊(2*sum + size) / (2*size)⌋` with floor division.
Used to evaluate concrete runs without rational arithmetic; proved equal to
`roundedMean` below. -/
def roundedMeanZ (sum : RGB) (size : ℕ) : RGB :=
  ⟨(2 * sum.r + size) / (2 * (size : ℤ)), (2 * sum.g + size) / (2 * (size : ℤ)),
    (2 * sum.b + size) / (2 * (size : ℤ))⟩

/-- `updateCenters` with the integer rounded mean. -/
def updateCentersZ (pixels : List RGB) (assignments : List ℕ) (clusterSizes : List ℕ)
    (oldCenters : List RGB) (k : ℕ) : List RGB :=
  let sums := (pixels.zip assignments).foldl (fun s pa => addAt s pa.2 pa.1)
    (List.replicate k (⟨0, 0, 0⟩ : RGB))
  sums.enum.map (fun is =>
    if 0 < clusterSizes.getD is.1 0 then roundedMeanZ is.2 (clusterSizes.getD is.1 0)
    else oldCenters.getD is.1 default)

/-- `kMeansLoop` with the integer update step. -/
def kMeansLoopZ (pixels : List RGB) (k : ℕ) : ℕ → List RGB → List ℕ → List RGB × List ℕ × ℕ
  | 0, centers, sizes => (centers, sizes, 0)
  | fuel + 1, centers, _ =>
      let ar := assignPixelsToCenters pixels centers k
      let newC := updateCentersZ pixels ar.1 ar.2 centers k
      if centersConverged centers newC then (newC, ar.2, 1)
      else
        let rest := kMeansLoopZ pixels k fuel newC ar.2
        (rest.1, rest.2.1, rest.2.2 + 1)

/-- The 4-pixel scenario input from the specification:
two black and two white pixels. -/
def pix4 : List RGB :=
  [⟨0, 0, 0⟩, ⟨0, 0, 0⟩, ⟨255, 255, 255⟩, ⟨255, 255, 255⟩]

/-- The black half of the expected 4-pixel-scenario output. -/
def blackResult : ColorResult :=
  ⟨"#000000", "rgb(0, 0, 0)", 0, 0, 0, "50.0"⟩

/-- The white half of the expected 4-pixel-scenario output. -/
def whiteResult : ColorResult :=
  ⟨"#ffffff", "rgb(255, 255, 255)", 255, 255, 255, "50.0"⟩

instance : DecidablePred inRange := fun p => by
  unfold inRange
  infer_instance

example : colorDistanceSq ⟨0, 0, 0⟩ ⟨255, 255, 255⟩ = 195075 := by decide

example : rgbToHex 42 59 76 = "#2a3b4c" := by decide

example : rgbString 42 59 76 = "rgb(42, 59, 76)" := by decide

example : toFixed1 50 = "50.0" := by
  have h : Int.floor ((50 : ℚ) * 10 + 1 / 2) = 500 := by norm_num
  simp only [toFixed1, h]
  decide

example : toFixed1 (253 / 10) = "25.3" := by
  have h : Int.floor ((253 / 10 : ℚ) * 10 + 1 / 2) = 253 := by norm_num
  simp only [toFixed1, h]
  decide

example : jsRound (255 / 2) = 128 := by
  simp only [jsRound]
  norm_num

/-! ### Basic lemmas about the weighted pick -/

theorem pickGo_mem (ps : List RGB) :
    ∀ (ds : List ℚ) (r : ℚ) (p : RGB), pickGo ps ds r = some p → p ∈ ps := by
  induction ps with
  | nil => intro ds r p h; simp [pickGo] at h
  | cons q qs ih =>
    intro ds r p h
    cases ds with
    | nil => simp [pickGo] at h
    | cons d ds' =>
      by_cases hc : r - d ≤ 0
      · simp [pickGo, hc] at h
        exact h ▸ List.mem_cons_self q qs
      · simp [pickGo, hc] at h
        exact List.mem_cons_of_mem q (ih ds' (r - d) p h)

theorem pickGo_isSome (ps : List RGB) :
    ∀ (ds : List ℚ) (r : ℚ), ps.length = ds.length → 0 ≤ r → r < ds.sum →
      (pickGo ps ds r).isSome := by
  induction ps with
  | nil =>
    intro ds r hlen h0 hlt
    cases ds with
    | nil => simp at hlt; exact absurd (lt_of_le_of_lt h0 hlt) (lt_irrefl 0)
    | cons d ds' => simp at hlen
  | cons q qs ih =>
    intro ds r hlen h0 hlt
    cases ds with
    | nil => simp at hlen
    | cons d ds' =>
      by_cases hc : r - d ≤ 0
      · simp [pickGo, hc]
      · simp only [pickGo, hc, if_false]
        have h0' : 0 ≤ r - d := le_of_lt (lt_of_not_le hc)
        have hlt' : r - d < ds'.sum := by
          rw [List.sum_cons] at hlt
          linarith
        exact ih ds' (r - d) (by simpa using hlen) h0' hlt'

/-- The subtraction loop picks exactly the first pixel whose cumulative
weight reaches the drawn value. -/
theorem pickGo_least (ps : List RGB) :
    ∀ (ds : List ℚ) (r : ℚ) (p : RGB), pickGo ps ds r = some p →
      ∃ i, ∃ hi : i < ps.length, p = ps.get ⟨i, hi⟩ ∧
        r ≤ ((ds.take (i + 1)).sum) ∧ ∀ j < i, (ds.take (j + 1)).sum < r := by
  induction ps with
  | nil => intro ds r p h; simp [pickGo] at h
  | cons q qs ih =>
    intro ds r p h
    cases ds with
    | nil => simp [pickGo] at h
    | cons d ds' =>
      by_cases hc : r - d ≤ 0
      · simp [pickGo, hc] at h
        refine ⟨0, Nat.succ_pos _, by simp [h.symm], ?_, by omega⟩
        simpa using sub_nonpos.mp hc
      · simp only [pickGo, hc, if_false] at h
        obtain ⟨i, hi, hp, hle, hmin⟩ := ih ds' (r - d) p h
        refine ⟨i + 1, Nat.succ_lt_succ hi, by simpa using hp, ?_, ?_⟩
        · simpa [List.sum_cons] using sub_le_iff_le_add'.mp hle
        · intro j hj
          cases j with
          | zero =>
            simp only [List.take_succ_cons, List.take_zero, List.sum_cons, List.sum_nil,
              add_zero]
            exact lt_of_not_le fun hdr => hc (sub_nonpos.mpr hdr)
          | succ jj =>
            have := hmin jj (Nat.lt_of_succ_lt_succ hj)
            simp only [List.take_succ_cons, List.sum_cons]
            linarith

theorem jsFloorIdx_lt (t : ℚ) (n : ℕ) (h0 : 0 ≤ t) (h1 : t < 1) (hn : 0 < n) :
    jsFloorIdx t n < n := by
  have hnn : (0 : ℚ) ≤ t * n := mul_nonneg h0 (by positivity)
  have hlt : t * (n : ℚ) < (n : ℚ) := mul_lt_of_lt_one_left (by exact_mod_cast hn) h1
  have hf0 : 0 ≤ Int.floor (t * (n : ℚ)) := Int.floor_nonneg.mpr hnn
  have hfn : Int.floor (t * (n : ℚ)) < (n : ℤ) := Int.floor_lt.mpr (by exact_mod_cast hlt)
  unfold jsFloorIdx
  omega

theorem jsLast_mem (ps : List RGB) (h : ps ≠ []) : jsLast ps ∈ ps := by
  unfold jsLast
  cases hl : ps.getLast? with
  | none => exact absurd (List.getLast?_eq_none_iff.mp hl) h
  | some p =>
    obtain ⟨hne, hx⟩ := List.mem_getLast?_eq_getLast (show p ∈ ps.getLast? by rw [hl]; rfl)
    exact hx ▸ List.getLast_mem hne

theorem weightedRandomPick_mem (t : ℚ) (ps : List RGB) (ds : List ℤ)
    (hne : ps ≠ []) (h0 : 0 ≤ t) (h1 : t < 1) :
    weightedRandomPick t ps ds ∈ ps := by
  unfold weightedRandomPick
  by_cases htot : ds.sum = 0
  · simp only [htot, if_true, reduceIte]
    have hidx : jsFloorIdx t ps.length < ps.length :=
      jsFloorIdx_lt t ps.length h0 h1 (List.length_pos.mpr hne)
    rw [List.getD_eq_getElem _ _ hidx]
    exact List.getElem_mem hidx
  · simp only [htot, reduceIte]
    cases hp : pickGo ps (ds.map (fun d => (Int.cast d : ℚ))) (t * (ds.sum : ℚ)) with
    | none => exact jsLast_mem ps hne
    | some p => exact pickGo_mem ps _ _ p hp

theorem castSum (l : List ℤ) : (l.map (fun d => (Int.cast d : ℚ))).sum = ((l.sum : ℤ) : ℚ) := by
  induction l with
  | nil => simp
  | cons d l ih => rw [List.map_cons, List.sum_cons, List.sum_cons, ih, Int.cast_add]

/-- C2: on an empty pixel list the engine returns an empty result without
entering the assignment/update loop; as a total function it never fails. -/
theorem kMeansClustering_empty_input (tape : ℕ → ℚ) (k maxIterations : ℕ) :
    kMeansClustering tape [] k maxIterations = [] ∧
      extractColorsCore tape [] k maxIterations = [] :=
  ⟨rfl, rfl⟩

/-- C10: `weightedRandomPick` is total on a non-empty pixel list with
non-negative weights — it always returns (a copy of) some listed pixel —
and whenever the total weight is positive the drawn value `t * total`
lies below the total, so the subtraction loop itself selects a pixel and
the post-loop fallback is unreachable. -/
theorem weightedRandomPick_total_and_no_fallback (t : ℚ) (pixels : List RGB)
    (distances : List ℤ) (hne : pixels ≠ []) (hlen : distances.length = pixels.length)
    (hw : ∀ d ∈ distances, 0 ≤ d) (ht0 : 0 ≤ t) (ht1 : t < 1) :
    weightedRandomPick t pixels distances ∈ pixels ∧
      (0 < distances.sum →
        (pickGo pixels (distances.map (fun d => (Int.cast d : ℚ)))
          (t * (distances.sum : ℚ))).isSome) := by
  refine ⟨weightedRandomPick_mem t pixels distances hne ht0 ht1, fun hpos => ?_⟩
  have htotQ : (0 : ℚ) < ((distances.sum : ℤ) : ℚ) := by exact_mod_cast hpos
  apply pickGo_isSome
  · rw [List.length_map]; exact hlen.symm
  · exact mul_nonneg ht0 (le_of_lt htotQ)
  · rw [castSum]
    exact mul_lt_of_lt_one_left htotQ ht1

/-! ### The assignment step -/

theorem closestAux_spec (p : RGB) (full : List RGB) :
    ∀ (rest : List RGB) (i best : ℕ) (bestD : ℤ),
      full.drop i = rest →
      best < i → best < full.length →
      bestD = distAt p full best →
      (∀ j, j < i → j < full.length → bestD ≤ distAt p full j) →
      (∀ j, j < best → bestD < distAt p full j) →
      closestAux p rest i best bestD < full.length ∧
        (∀ j, j < full.length →
          distAt p full (closestAux p rest i best bestD) ≤ distAt p full j) ∧
        (∀ j, j < closestAux p rest i best bestD →
          distAt p full j > distAt p full (closestAux p rest i best bestD)) := by
  intro rest
  induction rest with
  | nil =>
    intro i best bestD hdrop hbi hbl hbd hmin hstrict
    have hli : full.length ≤ i := List.drop_eq_nil_iff.mp hdrop
    simp only [closestAux]
    refine ⟨hbl, fun j hj => ?_, fun j hj => ?_⟩
    · rw [← hbd]; exact hmin j (lt_of_lt_of_le hj hli) hj
    · rw [← hbd]; exact hstrict j hj
  | cons c rest' ih =>
    intro i best bestD hdrop hbi hbl hbd hmin hstrict
    have hil : i < full.length := by
      by_contra hcon
      rw [List.drop_eq_nil_iff.mpr (le_of_not_lt hcon)] at hdrop
      exact List.noConfusion hdrop
    have hc : full.getD i default = c := by
      have h0 : (full.drop i)[0]? = full[i + 0]? := List.getElem?_drop full i 0
      rw [hdrop] at h0
      simp only [List.getElem?_cons_zero, Nat.add_zero] at h0
      rw [List.getD_eq_getElem?_getD, ← h0]
      rfl
    have hdrop' : full.drop (i + 1) = rest' := by
      rw [← List.tail_drop, hdrop]
      rfl
    simp only [closestAux]
    by_cases hlt : colorDistanceSq p c < bestD
    · simp only [hlt, if_true, reduceIte]
      refine ih (i + 1) i (colorDistanceSq p c) hdrop' (Nat.lt_succ_self i) hil ?_ ?_ ?_
      · rw [distAt, hc]
      · intro j hj hjl
        rcases Nat.lt_succ_iff_lt_or_eq.mp hj with hj' | hj'
        · exact le_of_lt (lt_of_lt_of_le hlt (hmin j hj' hjl))
        · subst hj'; rw [distAt, hc]
      · intro j hj
        exact lt_of_lt_of_le hlt (hmin j hj (lt_trans hj hil))
    · simp only [hlt, if_false, reduceIte]
      refine ih (i + 1) best bestD hdrop' (lt_trans hbi (Nat.lt_succ_self i)) hbl hbd ?_
        hstrict
      intro j hj hjl
      rcases Nat.lt_succ_iff_lt_or_eq.mp hj with hj' | hj'
      · exact hmin j hj' hjl
      · subst hj'; rw [distAt, hc]; exact le_of_not_lt hlt

theorem closestCenter_spec (p : RGB) (centers : List RGB) (hne : centers ≠ []) :
    closestCenter p centers < centers.length ∧
      (∀ j, j < centers.length →
        distAt p centers (closestCenter p centers) ≤ distAt p centers j) ∧
      (∀ j, j < closestCenter p centers →
        distAt p centers j > distAt p centers (closestCenter p centers)) := by
  cases centers with
  | nil => exact absurd rfl hne
  | cons c cs =>
    have hc : (c :: cs).getD 0 default = c := rfl
    have := closestAux_spec p (c :: cs) cs 1 0 (colorDistanceSq p c) rfl Nat.one_pos
      (Nat.succ_pos _) (by rw [distAt, hc]) ?_ ?_
    · exact this
    · intro j hj hjl
      interval_cases j
      rw [distAt, hc]
    · intro j hj
      exact absurd hj (Nat.not_lt_zero j)

theorem closestCenter_lt (p : RGB) (centers : List RGB) (hne : centers ≠ []) :
    closestCenter p centers < centers.length :=
  (closestCenter_spec p centers hne).1

/-! ### Cluster-size bookkeeping -/

theorem bump_length (l : List ℕ) (i : ℕ) : (bump l i).length = l.length :=
  List.length_set l i _

theorem foldl_bump_length (asg : List ℕ) :
    ∀ acc : List ℕ, (asg.foldl bump acc).length = acc.length := by
  induction asg with
  | nil => intro acc; rfl
  | cons a asg' ih =>
    intro acc
    rw [List.foldl_cons, ih, bump_length]

theorem bump_sum : ∀ (l : List ℕ) (i : ℕ), i < l.length → (bump l i).sum = l.sum + 1
  | [], i, h => absurd h (Nat.not_lt_zero i)
  | a :: l, 0, _ => by simp [bump, List.set, List.getD_cons_zero, List.sum_cons]; omega
  | a :: l, i + 1, h => by
    have := bump_sum l i (Nat.lt_of_succ_lt_succ h)
    simp only [bump, List.set, List.getD_cons_succ, List.sum_cons] at this ⊢
    omega

theorem foldl_bump_sum (asg : List ℕ) :
    ∀ acc : List ℕ, (∀ a ∈ asg, a < acc.length) →
      (asg.foldl bump acc).sum = acc.sum + asg.length := by
  induction asg with
  | nil => intro acc _; simp
  | cons a asg' ih =>
    intro acc hlt
    rw [List.foldl_cons, ih (bump acc a) ?_, bump_sum acc a (hlt a (List.mem_cons_self a asg'))]
    · simp [List.length_cons]; omega
    · intro x hx
      rw [bump_length]
      exact hlt x (List.mem_cons_of_mem a hx)

theorem bump_getD (l : List ℕ) (i j : ℕ) (hi : i < l.length) :
    (bump l i).getD j 0 = if i = j then l.getD j 0 + 1 else l.getD j 0 := by
  unfold bump
  rw [List.getD_eq_getElem?_getD, List.getElem?_set, List.getD_eq_getElem?_getD]
  by_cases hij : i = j
  · subst hij
    simp [hi, List.getD_eq_getElem?_getD, List.getElem?_eq_getElem hi]
  · simp [hij]

theorem foldl_bump_getD (asg : List ℕ) :
    ∀ (acc : List ℕ) (i : ℕ), (∀ a ∈ asg, a < acc.length) →
      (asg.foldl bump acc).getD i 0 = acc.getD i 0 + asg.count i := by
  induction asg with
  | nil => intro acc i _; simp
  | cons a asg' ih =>
    intro acc i hlt
    rw [List.foldl_cons, ih (bump acc a) i ?_, List.count_cons,
      bump_getD acc a i (hlt a (List.mem_cons_self a asg'))]
    · by_cases hai : a = i
      · simp [hai]; omega
      · have : (a == i) = false := by simp [hai]
        simp [hai, this]
    · intro x hx
      rw [bump_length]
      exact hlt x (List.mem_cons_of_mem a hx)

theorem getD_replicate_zero (k i : ℕ) : (List.replicate k (0 : ℕ)).getD i 0 = 0 := by
  rw [List.getD_eq_getElem?_getD, List.getElem?_replicate]
  by_cases h : i < k <;> simp [h]

/-- C3: the assignment step maps each pixel to the center of minimal squared
distance, ties to the lowest index, and the cluster sizes count each pixel in
exactly one cluster, summing to the pixel count. -/
theorem assignPixelsToCenters_spec (pixels centers : List RGB) (k : ℕ)
    (hne : centers ≠ []) (hk : centers.length = k) :
    (assignPixelsToCenters pixels centers k).1.length = pixels.length ∧
      (∀ idx, idx < pixels.length →
        (assignPixelsToCenters pixels centers k).1.getD idx 0 < k ∧
        (∀ j, j < k →
          distAt (pixels.getD idx default) centers
              ((assignPixelsToCenters pixels centers k).1.getD idx 0) ≤
            distAt (pixels.getD idx default) centers j) ∧
        (∀ j, j < (assignPixelsToCenters pixels centers k).1.getD idx 0 →
          distAt (pixels.getD idx default) centers j >
            distAt (pixels.getD idx default) centers
              ((assignPixelsToCenters pixels centers k).1.getD idx 0))) ∧
      (assignPixelsToCenters pixels centers k).2.sum = pixels.length ∧
      (assignPixelsToCenters pixels centers k).2.length = k ∧
      (∀ i, i < k →
        (assignPixelsToCenters pixels centers k).2.getD i 0 =
          (assignPixelsToCenters pixels centers k).1.count i) := by
  have hasg : (assignPixelsToCenters pixels centers k).1 =
      pixels.map (fun p => closestCenter p centers) := rfl
  have hgetD : ∀ idx, idx < pixels.length →
      (assignPixelsToCenters pixels centers k).1.getD idx 0 =
        closestCenter (pixels.getD idx default) centers := by
    intro idx hidx
    rw [hasg, List.getD_eq_getElem _ _ (by rw [List.length_map]; exact hidx),
      List.getElem_map, List.getD_eq_getElem _ _ hidx]
  have hmemlt : ∀ a ∈ (assignPixelsToCenters pixels centers k).1, a < k := by
    rw [hasg]
    intro a ha
    obtain ⟨p, _, hpa⟩ := List.mem_map.mp ha
    rw [← hpa, ← hk]
    exact closestCenter_lt p centers hne
  have hlenrep : ∀ a ∈ (assignPixelsToCenters pixels centers k).1,
      a < (List.replicate k (0 : ℕ)).length := by
    intro a ha
    rw [List.length_replicate]
    exact hmemlt a ha
  refine ⟨by rw [hasg, List.length_map], fun idx hidx => ?_, ?_, ?_, fun i _ => ?_⟩
  · rw [hgetD idx hidx, ← hk]
    exact ⟨(closestCenter_spec _ centers hne).1,
      fun j hj => (closestCenter_spec _ centers hne).2.1 j hj,
      fun j hj => (closestCenter_spec _ centers hne).2.2 j hj⟩
  · show ((assignPixelsToCenters pixels centers k).1.foldl bump
      (List.replicate k 0)).sum = pixels.length
    rw [foldl_bump_sum _ _ hlenrep, List.sum_replicate, hasg, List.length_map]
    simp
  · show ((assignPixelsToCenters pixels centers k).1.foldl bump
      (List.replicate k 0)).length = k
    rw [foldl_bump_length, List.length_replicate]
  · show ((assignPixelsToCenters pixels centers k).1.foldl bump
      (List.replicate k 0)).getD i 0 = _
    rw [foldl_bump_getD _ _ i hlenrep, getD_replicate_zero]
    simp

/-- Witness for C3 at a concrete input. -/
theorem assignPixelsToCenters_spec_witness :
    (assignPixelsToCenters [⟨0, 0, 0⟩, ⟨9, 9, 9⟩] [⟨0, 0, 0⟩, ⟨10, 10, 10⟩] 2).1.length =
        ([⟨0, 0, 0⟩, ⟨9, 9, 9⟩] : List RGB).length ∧
      (∀ idx, idx < ([⟨0, 0, 0⟩, ⟨9, 9, 9⟩] : List RGB).length →
        (assignPixelsToCenters [⟨0, 0, 0⟩, ⟨9, 9, 9⟩] [⟨0, 0, 0⟩, ⟨10, 10, 10⟩] 2).1.getD idx 0 < 2 ∧
        (∀ j, j < 2 →
          distAt (([⟨0, 0, 0⟩, ⟨9, 9, 9⟩] : List RGB).getD idx default) [⟨0, 0, 0⟩, ⟨10, 10, 10⟩]
              ((assignPixelsToCenters [⟨0, 0, 0⟩, ⟨9, 9, 9⟩] [⟨0, 0, 0⟩, ⟨10, 10, 10⟩] 2).1.getD idx 0) ≤
            distAt (([⟨0, 0, 0⟩, ⟨9, 9, 9⟩] : List RGB).getD idx default) [⟨0, 0, 0⟩, ⟨10, 10, 10⟩] j) ∧
        (∀ j, j < (assignPixelsToCenters [⟨0, 0, 0⟩, ⟨9, 9, 9⟩] [⟨0, 0, 0⟩, ⟨10, 10, 10⟩] 2).1.getD idx 0 →
          distAt (([⟨0, 0, 0⟩, ⟨9, 9, 9⟩] : List RGB).getD idx default) [⟨0, 0, 0⟩, ⟨10, 10, 10⟩] j >
            distAt (([⟨0, 0, 0⟩, ⟨9, 9, 9⟩] : List RGB).getD idx default) [⟨0, 0, 0⟩, ⟨10, 10, 10⟩]
              ((assignPixelsToCenters [⟨0, 0, 0⟩, ⟨9, 9, 9⟩] [⟨0, 0, 0⟩, ⟨10, 10, 10⟩] 2).1.getD idx 0))) ∧
      (assignPixelsToCenters [⟨0, 0, 0⟩, ⟨9, 9, 9⟩] [⟨0, 0, 0⟩, ⟨10, 10, 10⟩] 2).2.sum =
        ([⟨0, 0, 0⟩, ⟨9, 9, 9⟩] : List RGB).length ∧
      (assignPixelsToCenters [⟨0, 0, 0⟩, ⟨9, 9, 9⟩] [⟨0, 0, 0⟩, ⟨10, 10, 10⟩] 2).2.length = 2 ∧
      (∀ i, i < 2 →
        (assignPixelsToCenters [⟨0, 0, 0⟩, ⟨9, 9, 9⟩] [⟨0, 0, 0⟩, ⟨10, 10, 10⟩] 2).2.getD i 0 =
          (assignPixelsToCenters [⟨0, 0, 0⟩, ⟨9, 9, 9⟩] [⟨0, 0, 0⟩, ⟨10, 10, 10⟩] 2).1.count i) :=
  assignPixelsToCenters_spec [⟨0, 0, 0⟩, ⟨9, 9, 9⟩] [⟨0, 0, 0⟩, ⟨10, 10, 10⟩] 2
    (by simp) rfl

/-! ### The update step -/

theorem rgbExt {x y : RGB} (hr : x.r = y.r) (hg : x.g = y.g) (hb : x.b = y.b) : x = y := by
  cases x; cases y; simp_all

theorem channelSums_cons (p : RGB) (l : List RGB) :
    channelSums (p :: l) = addRGB (channelSums l) p := by
  apply rgbExt <;> simp [channelSums, addRGB] <;> ring

theorem addRGB_zero (p : RGB) : addRGB ⟨0, 0, 0⟩ p = p := by
  apply rgbExt <;> simp [addRGB]

theorem addAt_length (s : List RGB) (c : ℕ) (p : RGB) : (addAt s c p).length = s.length :=
  List.length_set s c _

theorem foldl_addAt_length (pairs : List (RGB × ℕ)) :
    ∀ acc : List RGB,
      (pairs.foldl (fun s pa => addAt s pa.2 pa.1) acc).length = acc.length := by
  induction pairs with
  | nil => intro acc; rfl
  | cons pa rest ih => intro acc; rw [List.foldl_cons, ih, addAt_length]

theorem addAt_getD (s : List RGB) (c i : ℕ) (p : RGB) (hi : i < s.length) :
    (addAt s c p).getD i default =
      if c = i then addRGB (s.getD i default) p else s.getD i default := by
  unfold addAt
  rw [List.getD_eq_getElem?_getD, List.getElem?_set, List.getD_eq_getElem?_getD]
  by_cases hci : c = i
  · subst hci
    simp [hi, List.getD_eq_getElem?_getD]
  · simp [hci]

theorem foldl_addAt_getD (pairs : List (RGB × ℕ)) :
    ∀ (acc : List RGB) (i : ℕ), i < acc.length →
      (pairs.foldl (fun s pa => addAt s pa.2 pa.1) acc).getD i default =
        addRGB (acc.getD i default)
          (channelSums ((pairs.filter (fun pa => pa.2 == i)).map (fun pa => pa.1))) := by
  induction pairs with
  | nil =>
    intro acc i _
    simp only [List.foldl_nil, List.filter_nil, List.map_nil, channelSums, List.map_nil,
      List.sum_nil]
    simp [addRGB]
  | cons pa rest ih =>
    intro acc i hi
    rw [List.foldl_cons, ih (addAt acc pa.2 pa.1) i (by rw [addAt_length]; exact hi),
      addAt_getD acc pa.2 i pa.1 hi, List.filter_cons]
    by_cases hci : pa.2 = i
    · simp only [hci, if_true, beq_self_eq_true, reduceIte, List.map_cons, channelSums_cons]
      apply rgbExt <;> simp [addRGB] <;> ring
    · have hb : (pa.2 == i) = false := by simp [hci]
      simp only [hci, hb, Bool.false_eq_true, if_false, reduceIte]

theorem assignedPixels_length (pixels : List RGB) :
    ∀ (asg : List ℕ) (i : ℕ), pixels.length = asg.length →
      (assignedPixels pixels asg i).length = asg.count i := by
  induction pixels with
  | nil =>
    intro asg i hlen
    have : asg = [] := List.eq_nil_of_length_eq_zero hlen.symm
    subst this
    rfl
  | cons p ps ih =>
    intro asg i hlen
    cases asg with
    | nil => simp at hlen
    | cons a asg' =>
      have hrec := ih asg' i (by simpa using hlen)
      simp only [assignedPixels] at hrec ⊢
      simp only [List.zip_cons_cons, List.filter_cons, List.count_cons]
      by_cases hai : a = i
      · simp [hai, hrec]
      · simp [hai, hrec]

theorem assignedPixels_mem (pixels : List RGB) (asg : List ℕ) (i : ℕ) :
    ∀ x ∈ assignedPixels pixels asg i, x ∈ pixels := by
  intro x hx
  obtain ⟨pa, hpa, hx1⟩ := List.mem_map.mp hx
  exact hx1 ▸ (List.of_mem_zip (List.mem_filter.mp hpa).1).1

theorem updateCenters_length (pixels : List RGB) (asg sizes : List ℕ) (oldC : List RGB)
    (k : ℕ) : (updateCenters pixels asg sizes oldC k).length = k := by
  unfold updateCenters
  rw [List.length_map, List.enum_length, foldl_addAt_length, List.length_replicate]

theorem updateCenters_getD (pixels : List RGB) (asg sizes : List ℕ) (oldC : List RGB)
    (k i : ℕ) (hi : i < k) :
    (updateCenters pixels asg sizes oldC k).getD i default =
      if 0 < sizes.getD i 0 then
        roundedMean (channelSums (assignedPixels pixels asg i)) (sizes.getD i 0)
      else oldC.getD i default := by
  unfold updateCenters
  have hslen : ((pixels.zip asg).foldl (fun s pa => addAt s pa.2 pa.1)
      (List.replicate k (⟨0, 0, 0⟩ : RGB))).length = k := by
    rw [foldl_addAt_length, List.length_replicate]
  have hi' : i < (((pixels.zip asg).foldl (fun s pa => addAt s pa.2 pa.1)
      (List.replicate k (⟨0, 0, 0⟩ : RGB))).enum.map (fun is =>
        if 0 < sizes.getD is.1 0 then roundedMean is.2 (sizes.getD is.1 0)
        else oldC.getD is.1 default)).length := by
    rw [List.length_map, List.enum_length, hslen]
    exact hi
  rw [List.getD_eq_getElem _ _ hi', List.getElem_map, List.getElem_enum]
  have hi2 : i < ((pixels.zip asg).foldl (fun s pa => addAt s pa.2 pa.1)
      (List.replicate k (⟨0, 0, 0⟩ : RGB))).length := by rw [hslen]; exact hi
  have hsums : ((pixels.zip asg).foldl (fun s pa => addAt s pa.2 pa.1)
      (List.replicate k (⟨0, 0, 0⟩ : RGB)))[i] =
      channelSums (assignedPixels pixels asg i) := by
    rw [← List.getD_eq_getElem _ default hi2]
    rw [foldl_addAt_getD _ _ i (by rw [List.length_replicate]; exact hi)]
    have hrep : (List.replicate k (⟨0, 0, 0⟩ : RGB)).getD i default = ⟨0, 0, 0⟩ := by
      rw [List.getD_eq_getElem?_getD, List.getElem?_replicate]
      simp [hi]
    rw [hrep]
    rw [show ((pixels.zip asg).filter (fun pa => pa.2 == i)).map (fun pa => pa.1) =
      assignedPixels pixels asg i from rfl]
    generalize channelSums (assignedPixels pixels asg i) = w
    simp [addRGB]
  rw [hsums]

/-- C4: the update step returns exactly `k` centers; a populated cluster gets
the per-channel rounded mean of exactly its assigned pixels, an empty cluster
keeps its previous center unchanged. -/
theorem updateCenters_spec (pixels : List RGB) (asg sizes : List ℕ) (oldC : List RGB)
    (k : ℕ) (hlen : pixels.length = asg.length)
    (hsz : ∀ i, i < k → sizes.getD i 0 = asg.count i) :
    (updateCenters pixels asg sizes oldC k).length = k ∧
      ∀ i, i < k →
        (0 < sizes.getD i 0 →
          (updateCenters pixels asg sizes oldC k).getD i default =
            roundedMean (channelSums (assignedPixels pixels asg i))
              (assignedPixels pixels asg i).length) ∧
        (sizes.getD i 0 = 0 →
          (updateCenters pixels asg sizes oldC k).getD i default =
            oldC.getD i default) := by
  refine ⟨updateCenters_length pixels asg sizes oldC k, fun i hi => ⟨fun hpos => ?_,
    fun hzero => ?_⟩⟩
  · rw [updateCenters_getD pixels asg sizes oldC k i hi, if_pos hpos,
      assignedPixels_length pixels asg i hlen, ← hsz i hi]
  · rw [updateCenters_getD pixels asg sizes oldC k i hi, if_neg (by omega)]

/-- Witness for C4 at a concrete input. -/
theorem updateCenters_spec_witness :
    (updateCenters [⟨2, 2, 2⟩, ⟨4, 4, 4⟩] [0, 0] [2, 0] [⟨9, 9, 9⟩, ⟨7, 7, 7⟩] 2).length = 2 ∧
      ∀ i, i < 2 →
        (0 < ([2, 0] : List ℕ).getD i 0 →
          (updateCenters [⟨2, 2, 2⟩, ⟨4, 4, 4⟩] [0, 0] [2, 0] [⟨9, 9, 9⟩, ⟨7, 7, 7⟩] 2).getD i default =
            roundedMean (channelSums (assignedPixels [⟨2, 2, 2⟩, ⟨4, 4, 4⟩] [0, 0] i))
              (assignedPixels [⟨2, 2, 2⟩, ⟨4, 4, 4⟩] [0, 0] i).length) ∧
        (([2, 0] : List ℕ).getD i 0 = 0 →
          (updateCenters [⟨2, 2, 2⟩, ⟨4, 4, 4⟩] [0, 0] [2, 0] [⟨9, 9, 9⟩, ⟨7, 7, 7⟩] 2).getD i default =
            ([⟨9, 9, 9⟩, ⟨7, 7, 7⟩] : List RGB).getD i default) :=
  updateCenters_spec [⟨2, 2, 2⟩, ⟨4, 4, 4⟩] [0, 0] [2, 0] [⟨9, 9, 9⟩, ⟨7, 7, 7⟩] 2 rfl
    (by decide)

/-- Witness for C10 at a concrete input. -/
theorem weightedRandomPick_total_and_no_fallback_witness :
    weightedRandomPick 0 [(⟨0, 0, 0⟩ : RGB)] [1] ∈ [(⟨0, 0, 0⟩ : RGB)] ∧
      (0 < ([1] : List ℤ).sum →
        (pickGo [(⟨0, 0, 0⟩ : RGB)] (([1] : List ℤ).map (fun d => (Int.cast d : ℚ)))
          (0 * ((([1] : List ℤ).sum : ℤ) : ℚ))).isSome) :=
  weightedRandomPick_total_and_no_fallback 0 [⟨0, 0, 0⟩] [1]
    (by simp) rfl (by decide) (by norm_num) (by norm_num)

/-! ### The seed initializer: length and membership -/

theorem initGo_length (tape : ℕ → ℚ) (pixels : List RGB) :
    ∀ (fuel : ℕ) (acc : List RGB),
      (initGo tape pixels fuel acc).length = acc.length + fuel := by
  intro fuel
  induction fuel with
  | zero => intro acc; rfl
  | succ n ih =>
    intro acc
    rw [initGo, ih, List.length_append]
    simp
    omega

theorem initGo_mem (tape : ℕ → ℚ) (pixels : List RGB) (hT : validTape tape)
    (hne : pixels ≠ []) :
    ∀ (fuel : ℕ) (acc : List RGB), (∀ c ∈ acc, c ∈ pixels) →
      ∀ c ∈ initGo tape pixels fuel acc, c ∈ pixels := by
  intro fuel
  induction fuel with
  | zero => intro acc hacc c hc; exact hacc c hc
  | succ n ih =>
    intro acc hacc c hc
    rw [initGo] at hc
    refine ih _ ?_ c hc
    intro x hx
    rcases List.mem_append.mp hx with hx1 | hx2
    · exact hacc x hx1
    · rw [List.mem_singleton.mp hx2]
      exact weightedRandomPick_mem _ pixels _ hne (hT acc.length).1 (hT acc.length).2

theorem kMeansPlusPlusInit_length (tape : ℕ → ℚ) (pixels : List RGB) (k : ℕ)
    (hk : 1 ≤ k) : (kMeansPlusPlusInit tape pixels k).length = k := by
  rw [kMeansPlusPlusInit, initGo_length]
  simp
  omega

theorem kMeansPlusPlusInit_mem (tape : ℕ → ℚ) (pixels : List RGB) (k : ℕ)
    (hT : validTape tape) (hne : pixels ≠ []) :
    ∀ c ∈ kMeansPlusPlusInit tape pixels k, c ∈ pixels := by
  rw [kMeansPlusPlusInit]
  apply initGo_mem tape pixels hT hne
  intro c hc
  rw [List.mem_singleton.mp hc]
  have hidx : jsFloorIdx (tape 0) pixels.length < pixels.length :=
    jsFloorIdx_lt (tape 0) pixels.length (hT 0).1 (hT 0).2 (List.length_pos.mpr hne)
  rw [List.getD_eq_getElem _ _ hidx]
  exact List.getElem_mem hidx

/-! ### Channel-range preservation across iterations -/

theorem jsRound_bounds (q : ℚ) (h0 : 0 ≤ q) (h1 : q ≤ 255) :
    0 ≤ jsRound q ∧ jsRound q ≤ 255 := by
  constructor
  · exact Int.floor_nonneg.mpr (by linarith)
  · have hlt : q + 1 / 2 < 256 := by linarith
    have := Int.floor_lt.mpr (show q + 1 / 2 < ((256 : ℤ) : ℚ) by exact_mod_cast hlt)
    rw [jsRound]
    omega

theorem sum_bounds (l : List ℤ) (hlb : ∀ x ∈ l, 0 ≤ x) (hub : ∀ x ∈ l, x ≤ 255) :
    0 ≤ l.sum ∧ l.sum ≤ 255 * l.length := by
  induction l with
  | nil => simp
  | cons a l ih =>
    have h1 := hlb a (List.mem_cons_self a l)
    have h2 := hub a (List.mem_cons_self a l)
    have := ih (fun x hx => hlb x (List.mem_cons_of_mem a hx))
      (fun x hx => hub x (List.mem_cons_of_mem a hx))
    simp only [List.sum_cons, List.length_cons]
    constructor
    · linarith [this.1]
    · have := this.2
      push_cast
      linarith

theorem roundedMean_inRange (l : List RGB) (hall : ∀ x ∈ l, inRange x) (hne : l ≠ []) :
    inRange (roundedMean (channelSums l) l.length) := by
  have hlen : 0 < l.length := List.length_pos.mpr hne
  have hr := sum_bounds (l.map RGB.r) (fun x hx => by
      obtain ⟨p, hp, hpx⟩ := List.mem_map.mp hx
      exact hpx ▸ (hall p hp).1)
    (fun x hx => by
      obtain ⟨p, hp, hpx⟩ := List.mem_map.mp hx
      exact hpx ▸ (hall p hp).2.1)
  have hg := sum_bounds (l.map RGB.g) (fun x hx => by
      obtain ⟨p, hp, hpx⟩ := List.mem_map.mp hx
      exact hpx ▸ (hall p hp).2.2.1)
    (fun x hx => by
      obtain ⟨p, hp, hpx⟩ := List.mem_map.mp hx
      exact hpx ▸ (hall p hp).2.2.2.1)
  have hb := sum_bounds (l.map RGB.b) (fun x hx => by
      obtain ⟨p, hp, hpx⟩ := List.mem_map.mp hx
      exact hpx ▸ (hall p hp).2.2.2.2.1)
    (fun x hx => by
      obtain ⟨p, hp, hpx⟩ := List.mem_map.mp hx
      exact hpx ▸ (hall p hp).2.2.2.2.2)
  rw [List.length_map] at hr hg hb
  have key : ∀ s : ℤ, 0 ≤ s → s ≤ 255 * l.length →
      0 ≤ jsRound ((s : ℚ) / (l.length : ℚ)) ∧
        jsRound ((s : ℚ) / (l.length : ℚ)) ≤ 255 := by
    intro s hs0 hs1
    have hlq : (0 : ℚ) < (l.length : ℚ) := by exact_mod_cast hlen
    apply jsRound_bounds
    · positivity
    · rw [div_le_iff hlq]
      exact_mod_cast hs1
  exact ⟨(key _ hr.1 hr.2).1, (key _ hr.1 hr.2).2, (key _ hg.1 hg.2).1,
    (key _ hg.1 hg.2).2, (key _ hb.1 hb.2).1, (key _ hb.1 hb.2).2⟩

theorem stepCenters_length (pixels : List RGB) (k : ℕ) (centers : List RGB) :
    (stepCenters pixels k centers).length = k :=
  updateCenters_length pixels _ _ centers k

theorem stepCenters_inRange (pixels centers : List RGB) (k : ℕ)
    (hne : centers ≠ []) (hk : centers.length = k)
    (hpx : ∀ p ∈ pixels, inRange p) (hc : ∀ c ∈ centers, inRange c) :
    ∀ c ∈ stepCenters pixels k centers, inRange c := by
  intro c hcmem
  obtain ⟨i, hi, hgi⟩ := List.mem_iff_getElem.mp hcmem
  rw [stepCenters_length] at hi
  have hasglen : pixels.length = (assignPixelsToCenters pixels centers k).1.length :=
    ((assignPixelsToCenters_spec pixels centers k hne hk).1).symm
  have hcount := (assignPixelsToCenters_spec pixels centers k hne hk).2.2.2.2 i hi
  have hgetD : (stepCenters pixels k centers).getD i default = c := by
    rw [List.getD_eq_getElem _ _ (by rw [stepCenters_length]; exact hi)]
    exact hgi
  rw [show stepCenters pixels k centers = updateCenters pixels
    (assignPixelsToCenters pixels centers k).1
    (assignPixelsToCenters pixels centers k).2 centers k from rfl] at hgetD
  rw [updateCenters_getD _ _ _ _ _ i hi] at hgetD
  by_cases hpos : 0 < (assignPixelsToCenters pixels centers k).2.getD i 0
  · rw [if_pos hpos] at hgetD
    have hlen2 : (assignedPixels pixels (assignPixelsToCenters pixels centers k).1 i).length =
        (assignPixelsToCenters pixels centers k).2.getD i 0 := by
      rw [assignedPixels_length _ _ _ hasglen, hcount]
    rw [← hlen2] at hgetD
    have hnz : assignedPixels pixels (assignPixelsToCenters pixels centers k).1 i ≠ [] := by
      apply List.ne_nil_of_length_pos
      omega
    rw [← hgetD]
    exact roundedMean_inRange _
      (fun x hx => hpx x (assignedPixels_mem pixels _ i x hx)) hnz
  · rw [if_neg hpos] at hgetD
    have hik : i < centers.length := by rw [hk]; exact hi
    rw [List.getD_eq_getElem _ _ hik] at hgetD
    rw [← hgetD]
    exact hc _ (List.getElem_mem hik)

theorem iterate_step_inv (pixels : List RGB) (k : ℕ) (hk1 : 1 ≤ k)
    (hpx : ∀ p ∈ pixels, inRange p) :
    ∀ (n : ℕ) (c0 : List RGB), c0.length = k → (∀ x ∈ c0, inRange x) →
      ((stepCenters pixels k)^[n] c0).length = k ∧
        ∀ x ∈ (stepCenters pixels k)^[n] c0, inRange x := by
  intro n
  induction n with
  | zero => intro c0 h1 h2; simpa using ⟨h1, h2⟩
  | succ m ih =>
    intro c0 h1 h2
    rw [Function.iterate_succ_apply]
    apply ih
    · exact stepCenters_length pixels k c0
    · exact stepCenters_inRange pixels c0 k
        (List.ne_nil_of_length_pos (by omega)) h1 hpx h2

/-! ### The convergence controller -/

theorem kMeansLoop_spec (pixels : List RGB) (k : ℕ) :
    ∀ (fuel : ℕ) (c0 : List RGB) (s0 : List ℕ),
      ∃ c s n, kMeansLoop pixels k fuel c0 s0 = (c, s, n) ∧
        n ≤ fuel ∧
        c = (stepCenters pixels k)^[n] c0 ∧
        (fuel = 0 → n = 0 ∧ s = s0) ∧
        (1 ≤ fuel → 1 ≤ n ∧ s = sizesAt pixels k ((stepCenters pixels k)^[n - 1] c0)) ∧
        (n < fuel → convergesNow pixels k ((stepCenters pixels k)^[n - 1] c0) = true) ∧
        (∀ m, m + 1 < n → convergesNow pixels k ((stepCenters pixels k)^[m] c0) = false) := by
  intro fuel
  induction fuel with
  | zero =>
    intro c0 s0
    exact ⟨c0, s0, 0, rfl, le_refl 0, (Function.iterate_zero_apply _ c0).symm,
      fun _ => ⟨rfl, rfl⟩, fun h => absurd h (by omega), fun h => absurd h (by omega),
      fun m hm => absurd hm (by omega)⟩
  | succ fuel ih =>
    intro c0 s0
    have hunf : kMeansLoop pixels k (fuel + 1) c0 s0 =
        if centersConverged c0 (stepCenters pixels k c0) then
          (stepCenters pixels k c0, sizesAt pixels k c0, 1)
        else
          ((kMeansLoop pixels k fuel (stepCenters pixels k c0) (sizesAt pixels k c0)).1,
            (kMeansLoop pixels k fuel (stepCenters pixels k c0) (sizesAt pixels k c0)).2.1,
            (kMeansLoop pixels k fuel (stepCenters pixels k c0) (sizesAt pixels k c0)).2.2 + 1) := by
      simp only [kMeansLoop, stepCenters, sizesAt]
    by_cases hcv : centersConverged c0 (stepCenters pixels k c0) = true
    · refine ⟨stepCenters pixels k c0, sizesAt pixels k c0, 1, ?_, by omega, ?_, ?_, ?_, ?_, ?_⟩
      · rw [hunf, if_pos hcv]
      · rw [Function.iterate_one]
      · intro h; omega
      · intro _
        exact ⟨le_refl 1, by rw [Nat.sub_self, Function.iterate_zero_apply]⟩
      · intro _
        rw [Nat.sub_self, Function.iterate_zero_apply]
        exact hcv
      · intro m hm; omega
    · have hcv' : centersConverged c0 (stepCenters pixels k c0) = false :=
        Bool.eq_false_iff.mpr hcv
      obtain ⟨c, s, n, hEq, hle, hit, h0, h1, hearly, hmin⟩ :=
        ih (stepCenters pixels k c0) (sizesAt pixels k c0)
      refine ⟨c, s, n + 1, ?_, by omega, ?_, ?_, ?_, ?_, ?_⟩
      · rw [hunf, if_neg (by rw [hcv']; exact Bool.false_ne_true), hEq]
      · rw [hit]
        exact (Function.iterate_succ_apply _ n c0).symm
      · intro h; omega
      · intro _
        refine ⟨by omega, ?_⟩
        rcases Nat.eq_zero_or_pos fuel with hf | hf
        · subst hf
          obtain ⟨hn0, hs0⟩ := h0 rfl
          subst hn0
          rw [hs0]
          simp [Function.iterate_zero_apply]
        · obtain ⟨hn1, hs⟩ := h1 hf
          have hiter : (stepCenters pixels k)^[n - 1] (stepCenters pixels k c0) =
              (stepCenters pixels k)^[n] c0 := by
            rw [← Function.iterate_succ_apply]
            exact congrArg (fun m => (stepCenters pixels k)^[m] c0)
              (show (n - 1).succ = n from by omega)
          rw [hs, Nat.add_sub_cancel, hiter]
      · intro hlt
        have hnf : n < fuel := by omega
        have hn1 : 1 ≤ n := (h1 (by omega)).1
        have hiter : (stepCenters pixels k)^[n - 1] (stepCenters pixels k c0) =
            (stepCenters pixels k)^[n] c0 := by
          rw [← Function.iterate_succ_apply]
          exact congrArg (fun m => (stepCenters pixels k)^[m] c0)
            (show (n - 1).succ = n from by omega)
        rw [Nat.add_sub_cancel, ← hiter]
        exact hearly hnf
      · intro m hm
        cases m with
        | zero =>
          rw [Function.iterate_zero_apply]
          show centersConverged c0 (stepCenters pixels k c0) = false
          exact hcv'
        | succ mm =>
          have := hmin mm (by omega)
          rw [← Function.iterate_succ_apply] at this
          exact this

/-- C5: with `pixelCount > 0` and `maxIterations ≥ 1` the loop performs at
least one and at most `maxIterations` assignment/update pairs; it stops
before exhausting `maxIterations` only when the convergence test (all
old/new center pairs within squared distance 25) has just passed, never
stops while the test still fails, and on exhaustion simply keeps the last
computed centers and sizes. -/
theorem kMeansLoop_termination_spec (pixels : List RGB) (k maxIterations : ℕ)
    (c0 : List RGB) (hne : pixels ≠ []) (hmi : 1 ≤ maxIterations) :
    ∃ c s n, kMeansLoop pixels k maxIterations c0 [] = (c, s, n) ∧
      1 ≤ n ∧ n ≤ maxIterations ∧
      c = (stepCenters pixels k)^[n] c0 ∧
      s = sizesAt pixels k ((stepCenters pixels k)^[n - 1] c0) ∧
      (n < maxIterations →
        convergesNow pixels k ((stepCenters pixels k)^[n - 1] c0) = true) ∧
      (∀ m, m + 1 < n → convergesNow pixels k ((stepCenters pixels k)^[m] c0) = false) := by
  obtain ⟨c, s, n, hEq, hle, hit, _, h1, hearly, hmin⟩ :=
    kMeansLoop_spec pixels k maxIterations c0 []
  exact ⟨c, s, n, hEq, (h1 hmi).1, hle, hit, (h1 hmi).2, hearly, hmin⟩

/-- Witness for C5 at a concrete input. -/
theorem kMeansLoop_termination_spec_witness :
    ∃ c s n, kMeansLoop [(⟨0, 0, 0⟩ : RGB)] 1 1 [(⟨0, 0, 0⟩ : RGB)] [] = (c, s, n) ∧
      1 ≤ n ∧ 1 ≤ 1 ∧ n ≤ 1 ∧
      c = (stepCenters [(⟨0, 0, 0⟩ : RGB)] 1)^[n] [(⟨0, 0, 0⟩ : RGB)] ∧
      s = sizesAt [(⟨0, 0, 0⟩ : RGB)] 1
        ((stepCenters [(⟨0, 0, 0⟩ : RGB)] 1)^[n - 1] [(⟨0, 0, 0⟩ : RGB)]) ∧
      (n < 1 → convergesNow [(⟨0, 0, 0⟩ : RGB)] 1
        ((stepCenters [(⟨0, 0, 0⟩ : RGB)] 1)^[n - 1] [(⟨0, 0, 0⟩ : RGB)]) = true) ∧
      (∀ m, m + 1 < n → convergesNow [(⟨0, 0, 0⟩ : RGB)] 1
        ((stepCenters [(⟨0, 0, 0⟩ : RGB)] 1)^[m] [(⟨0, 0, 0⟩ : RGB)]) = false) := by
  obtain ⟨c, s, n, hEq, h1, h2, h3, h4, h5, h6⟩ :=
    kMeansLoop_termination_spec [(⟨0, 0, 0⟩ : RGB)] 1 1 [(⟨0, 0, 0⟩ : RGB)]
      (by simp) (le_refl 1)
  exact ⟨c, s, n, hEq, h1, le_refl 1, h2, h3, h4, h5, h6⟩

/-! ### Ranking and the full pipeline -/

theorem rankClusters_length (centers : List RGB) (sizes : List ℕ) (n : ℕ) :
    (rankClusters centers sizes n).length = centers.length := by
  unfold rankClusters
  rw [(List.mergeSort_perm _ percentGE).length_eq, List.length_map, List.enum_length]

theorem rankClusters_color_mem (centers : List RGB) (sizes : List ℕ) (n : ℕ) :
    ∀ it ∈ rankClusters centers sizes n, it.color ∈ centers := by
  intro it hit
  unfold rankClusters at hit
  rw [(List.mergeSort_perm _ percentGE).mem_iff] at hit
  obtain ⟨ic, hic, hiteq⟩ := List.mem_map.mp hit
  rw [← hiteq]
  exact List.snd_mem_of_mem_enum hic

/-- Unfolding of `kMeansClustering` on a non-empty pixel list. -/
theorem kMeansClustering_eq (tape : ℕ → ℚ) (pixels : List RGB) (k0 mi : ℕ)
    (hne : pixels ≠ []) :
    kMeansClustering tape pixels k0 mi =
      rankClusters
        (kMeansLoop pixels (min k0 pixels.length) mi
          (kMeansPlusPlusInit tape pixels (min k0 pixels.length)) []).1
        (kMeansLoop pixels (min k0 pixels.length) mi
          (kMeansPlusPlusInit tape pixels (min k0 pixels.length)) []).2.1
        pixels.length := by
  unfold kMeansClustering
  rw [if_neg hne]

theorem kMeansClustering_length_eq (tape : ℕ → ℚ) (pixels : List RGB) (k0 mi : ℕ)
    (hT : validTape tape) (hne : pixels ≠ []) (hk : 1 ≤ k0) :
    (kMeansClustering tape pixels k0 mi).length = min k0 pixels.length := by
  have hkk : 1 ≤ min k0 pixels.length :=
    le_min hk (Nat.succ_le_of_lt (List.length_pos.mpr hne))
  have hinit : (kMeansPlusPlusInit tape pixels (min k0 pixels.length)).length =
      min k0 pixels.length := kMeansPlusPlusInit_length tape pixels _ hkk
  rw [kMeansClustering_eq tape pixels k0 mi hne, rankClusters_length]
  obtain ⟨c, s, n, hEq, _, hit, h0, h1, _, _⟩ :=
    kMeansLoop_spec pixels (min k0 pixels.length) mi
      (kMeansPlusPlusInit tape pixels (min k0 pixels.length)) []
  rw [hEq]
  show c.length = min k0 pixels.length
  rw [hit]
  clear hEq
  induction n with
  | zero => simpa using hinit
  | succ m _ =>
    rw [Function.iterate_succ_apply']
    exact stepCenters_length pixels _ _

theorem extractColorsCore_length_eq (tape : ℕ → ℚ) (pixels : List RGB) (k0 mi : ℕ)
    (hT : validTape tape) (hne : pixels ≠ []) (hk : 1 ≤ k0) :
    (extractColorsCore tape pixels k0 mi).length = min k0 pixels.length := by
  unfold extractColorsCore formatResults
  rw [List.length_map]
  exact kMeansClustering_length_eq tape pixels k0 mi hT hne hk

theorem kMeansClustering_color_inRange (tape : ℕ → ℚ) (pixels : List RGB) (k0 mi : ℕ)
    (hT : validTape tape) (hne : pixels ≠ []) (hk : 1 ≤ k0)
    (hpx : ∀ p ∈ pixels, inRange p) :
    ∀ it ∈ kMeansClustering tape pixels k0 mi, inRange it.color := by
  intro it hit
  have hkk : 1 ≤ min k0 pixels.length :=
    le_min hk (Nat.succ_le_of_lt (List.length_pos.mpr hne))
  have hinit : (kMeansPlusPlusInit tape pixels (min k0 pixels.length)).length =
      min k0 pixels.length := kMeansPlusPlusInit_length tape pixels _ hkk
  rw [kMeansClustering_eq tape pixels k0 mi hne] at hit
  obtain ⟨c, s, n, hEq, _, hcit, _, _, _, _⟩ :=
    kMeansLoop_spec pixels (min k0 pixels.length) mi
      (kMeansPlusPlusInit tape pixels (min k0 pixels.length)) []
  rw [hEq] at hit
  have hcol := rankClusters_color_mem c s pixels.length it hit
  have hinv := iterate_step_inv pixels (min k0 pixels.length) hkk hpx n
    (kMeansPlusPlusInit tape pixels (min k0 pixels.length)) hinit
    (fun x hx => hpx x (kMeansPlusPlusInit_mem tape pixels _ hT hne x hx))
  rw [hcit] at hcol
  exact hinv.2 it.color hcol

/-- C1: on a non-empty pixel list of well-formed pixels with
`colorCount ≥ 1`, the extraction returns exactly
`min colorCount pixelCount` colors, and every returned color's integer
channel values lie in `[0, 255]`. -/
theorem extractColorsCore_length_and_range (tape : ℕ → ℚ) (pixels : List RGB)
    (k0 mi : ℕ) (hT : validTape tape) (hne : pixels ≠ []) (hk : 1 ≤ k0)
    (hpx : ∀ p ∈ pixels, inRange p) :
    (extractColorsCore tape pixels k0 mi).length = min k0 pixels.length ∧
      ∀ res ∈ extractColorsCore tape pixels k0 mi,
        0 ≤ res.r ∧ res.r ≤ 255 ∧ 0 ≤ res.g ∧ res.g ≤ 255 ∧ 0 ≤ res.b ∧ res.b ≤ 255 := by
  refine ⟨extractColorsCore_length_eq tape pixels k0 mi hT hne hk, ?_⟩
  intro res hres
  unfold extractColorsCore formatResults at hres
  obtain ⟨it, hitmem, hreseq⟩ := List.mem_map.mp hres
  have := kMeansClustering_color_inRange tape pixels k0 mi hT hne hk hpx it hitmem
  rw [← hreseq]
  exact this

/-- Witness for C1 at a concrete input. -/
theorem extractColorsCore_length_and_range_witness :
    (extractColorsCore (fun _ => 0) [(⟨3, 4, 5⟩ : RGB)] 2 20).length =
        min 2 ([(⟨3, 4, 5⟩ : RGB)] : List RGB).length ∧
      ∀ res ∈ extractColorsCore (fun _ => 0) [(⟨3, 4, 5⟩ : RGB)] 2 20,
        0 ≤ res.r ∧ res.r ≤ 255 ∧ 0 ≤ res.g ∧ res.g ≤ 255 ∧ 0 ≤ res.b ∧ res.b ≤ 255 :=
  extractColorsCore_length_and_range (fun _ => 0) [⟨3, 4, 5⟩] 2 20
    (fun n => ⟨le_refl 0, by norm_num⟩) (by simp) (by omega) (by decide)

/-- C8 counterexample: a pixel list with exactly 3 distinct pixel values but
6 entries.  The engine clamps `k` by the pixel count, not by the number of
distinct values, so requesting 10 colors returns 6 results, not 3. -/
theorem three_distinct_values_counterexample :
    (([⟨0, 0, 0⟩, ⟨0, 0, 0⟩, ⟨10, 10, 10⟩, ⟨10, 10, 10⟩, ⟨20, 20, 20⟩, ⟨20, 20, 20⟩] :
        List RGB).dedup.length = 3) ∧
      (extractColorsCore (fun _ => 0)
        [⟨0, 0, 0⟩, ⟨0, 0, 0⟩, ⟨10, 10, 10⟩, ⟨10, 10, 10⟩, ⟨20, 20, 20⟩, ⟨20, 20, 20⟩]
        10 20).length ≠ 3 := by
  constructor
  · decide
  · rw [extractColorsCore_length_eq (fun _ => 0) _ 10 20
      (fun n => ⟨le_refl 0, by norm_num⟩) (by simp) (by omega)]
    decide

/-- C8 amended: when the pixel list itself has exactly 3 entries (three
distinct pixels supplied), requesting 10 colors returns 3 results, since the
returned length is `min(colorCount, pixelCount)`. -/
theorem three_pixels_length (tape : ℕ → ℚ) (p1 p2 p3 : RGB) (hT : validTape tape) :
    (extractColorsCore tape [p1, p2, p3] 10 20).length = 3 := by
  rw [extractColorsCore_length_eq tape [p1, p2, p3] 10 20 hT (by simp) (by omega)]
  simp

/-- Witness for the amended C8 at a concrete input. -/
theorem three_pixels_length_witness :
    (extractColorsCore (fun _ => 0) [⟨0, 0, 0⟩, ⟨1, 1, 1⟩, ⟨2, 2, 2⟩] 10 20).length = 3 :=
  three_pixels_length (fun _ => 0) ⟨0, 0, 0⟩ ⟨1, 1, 1⟩ ⟨2, 2, 2⟩
    (fun n => ⟨le_refl 0, by norm_num⟩)

/-! ### The ranker/formatter -/

theorem percentGE_trans (a b c : ClusterShare) :
    percentGE a b = true → percentGE b c = true → percentGE a c = true := by
  unfold percentGE
  intro h1 h2
  exact decide_eq_true (le_trans (of_decide_eq_true h2) (of_decide_eq_true h1))

theorem percentGE_total (a b : ClusterShare) : (percentGE a b || percentGE b a) = true := by
  unfold percentGE
  rcases le_total a.percentage b.percentage with h | h
  · simp [decide_eq_true h]
  · simp [decide_eq_true h]

theorem toFixed1_one_decimal (q : ℚ) :
    ∃ pre d : String, toFixed1 q = pre ++ "." ++ d ∧ d.length = 1 := by
  refine ⟨(if Int.floor (q * 10 + 1 / 2) < 0 then "-" else "") ++
    toString ((Int.floor (q * 10 + 1 / 2)).natAbs / 10),
    toString ((Int.floor (q * 10 + 1 / 2)).natAbs % 10), rfl, ?_⟩
  have hlt : (Int.floor (q * 10 + 1 / 2)).natAbs % 10 < 10 := Nat.mod_lt _ (by omega)
  generalize (Int.floor (q * 10 + 1 / 2)).natAbs % 10 = m at hlt
  interval_cases m <;> rfl

/-- C7: the ranker pairs each cluster with `percentage = 100*size/pixelCount`,
sorts descending by percentage with a stable sort (ties keep prior relative
order), and the formatter emits lowercase zero-padded hex (e.g. `#2a3b4c`
for `(42,59,76)`), `rgb(r, g, b)` strings, and percentages with exactly one
decimal place. -/
theorem rankClusters_formatResults_spec (centers : List RGB) (sizes : List ℕ) (n : ℕ)
    (hn : 0 < n) :
    (rankClusters centers sizes n).Perm
        (centers.enum.map (fun ic =>
          (⟨ic.2, 100 * (sizes.getD ic.1 0 : ℚ) / (n : ℚ)⟩ : ClusterShare))) ∧
      List.Pairwise (fun a b : ClusterShare => b.percentage ≤ a.percentage)
        (rankClusters centers sizes n) ∧
      (∀ a b : ClusterShare, a.percentage = b.percentage →
        List.Sublist [a, b] (centers.enum.map (fun ic =>
          (⟨ic.2, 100 * (sizes.getD ic.1 0 : ℚ) / (n : ℚ)⟩ : ClusterShare))) →
        List.Sublist [a, b] (rankClusters centers sizes n)) ∧
      rgbToHex 42 59 76 = "#2a3b4c" ∧
      rgbString 42 59 76 = "rgb(42, 59, 76)" ∧
      (∀ res ∈ formatResults (rankClusters centers sizes n),
        ∃ pre d : String, res.percentage = pre ++ "." ++ d ∧ d.length = 1) := by
  have hmapeq : centers.enum.map (fun ic =>
      (⟨ic.2, ((sizes.getD ic.1 0 : ℚ) / (n : ℚ)) * 100⟩ : ClusterShare)) =
      centers.enum.map (fun ic =>
        (⟨ic.2, 100 * (sizes.getD ic.1 0 : ℚ) / (n : ℚ)⟩ : ClusterShare)) := by
    apply List.map_congr_left
    intro ic _
    exact congrArg (ClusterShare.mk ic.2) (by ring)
  refine ⟨?_, ?_, ?_, by decide, by decide, ?_⟩
  · unfold rankClusters
    exact hmapeq ▸ List.mergeSort_perm _ percentGE
  · have := List.sorted_mergeSort percentGE_trans percentGE_total
      (centers.enum.map (fun ic =>
        (⟨ic.2, ((sizes.getD ic.1 0 : ℚ) / (n : ℚ)) * 100⟩ : ClusterShare)))
    unfold rankClusters
    exact this.imp (fun h => of_decide_eq_true h)
  · intro a b hpct hsub
    unfold rankClusters
    apply List.mergeSort_stable_pair percentGE_trans percentGE_total
    · exact decide_eq_true (le_of_eq hpct.symm)
    · rw [hmapeq]
      exact hsub
  · intro res hres
    unfold formatResults at hres
    obtain ⟨it, _, hreseq⟩ := List.mem_map.mp hres
    obtain ⟨pre, d, heq, hd⟩ := toFixed1_one_decimal it.percentage
    exact ⟨pre, d, by rw [← hreseq]; exact heq, hd⟩

/-- Witness for C7 at a concrete input. -/
theorem rankClusters_formatResults_spec_witness :
    (rankClusters [(⟨42, 59, 76⟩ : RGB)] [1] 1).Perm
        (([(⟨42, 59, 76⟩ : RGB)] : List RGB).enum.map (fun ic =>
          (⟨ic.2, 100 * ((([1] : List ℕ).getD ic.1 0 : ℚ)) / ((1 : ℕ) : ℚ)⟩ : ClusterShare))) ∧
      List.Pairwise (fun a b : ClusterShare => b.percentage ≤ a.percentage)
        (rankClusters [(⟨42, 59, 76⟩ : RGB)] [1] 1) ∧
      (∀ a b : ClusterShare, a.percentage = b.percentage →
        List.Sublist [a, b] (([(⟨42, 59, 76⟩ : RGB)] : List RGB).enum.map (fun ic =>
          (⟨ic.2, 100 * ((([1] : List ℕ).getD ic.1 0 : ℚ)) / ((1 : ℕ) : ℚ)⟩ : ClusterShare))) →
        List.Sublist [a, b] (rankClusters [(⟨42, 59, 76⟩ : RGB)] [1] 1)) ∧
      rgbToHex 42 59 76 = "#2a3b4c" ∧
      rgbString 42 59 76 = "rgb(42, 59, 76)" ∧
      (∀ res ∈ formatResults (rankClusters [(⟨42, 59, 76⟩ : RGB)] [1] 1),
        ∃ pre d : String, res.percentage = pre ++ "." ++ d ∧ d.length = 1) :=
  rankClusters_formatResults_spec [⟨42, 59, 76⟩] [1] 1 (by omega)

/-! ### Structure of the seed initializer -/

theorem initGo_take_le (tape : ℕ → ℚ) (pixels : List RGB) :
    ∀ (fuel : ℕ) (acc : List RGB) (m : ℕ), m ≤ acc.length →
      (initGo tape pixels fuel acc).take m = acc.take m := by
  intro fuel
  induction fuel with
  | zero => intro acc m _; rfl
  | succ n ih =>
    intro acc m hm
    rw [initGo, ih _ m (by rw [List.length_append]; simp; omega),
      List.take_append_of_le_length hm]

theorem getD_eq_of_take_succ {l w : List RGB} {c : ℕ} (h : l.take (c + 1) = w) :
    l.getD c default = w.getD c default := by
  rw [List.getD_eq_getElem?_getD, List.getD_eq_getElem?_getD, ← h, List.getElem?_take]
  simp

theorem initGo_getD_step (tape : ℕ → ℚ) (pixels : List RGB) :
    ∀ (fuel : ℕ) (acc : List RGB) (c : ℕ), acc.length ≤ c → c < acc.length + fuel →
      (initGo tape pixels fuel acc).getD c default =
        weightedRandomPick (tape c) pixels
          (minDistancesToCenters pixels ((initGo tape pixels fuel acc).take c)) := by
  intro fuel
  induction fuel with
  | zero => intro acc c h1 h2; omega
  | succ n ih =>
    intro acc c h1 h2
    rcases Nat.lt_or_ge c (acc.length + 1) with hc | hc
    · have hceq : c = acc.length := by omega
      subst hceq
      have htake1 : (initGo tape pixels (n + 1) acc).take (acc.length + 1) =
          acc ++ [weightedRandomPick (tape acc.length) pixels
            (minDistancesToCenters pixels acc)] := by
        rw [initGo, initGo_take_le tape pixels n _ (acc.length + 1)
          (by rw [List.length_append]; simp)]
        rw [show acc.length + 1 = (acc ++ [weightedRandomPick (tape acc.length) pixels
          (minDistancesToCenters pixels acc)]).length from by rw [List.length_append]; simp,
          List.take_length]
      have htake0 : (initGo tape pixels (n + 1) acc).take acc.length = acc := by
        rw [initGo, initGo_take_le tape pixels n _ acc.length
          (by rw [List.length_append]; simp),
          List.take_append_of_le_length (le_refl acc.length), List.take_length]
      rw [getD_eq_of_take_succ htake1, htake0]
      rw [List.getD_eq_getElem?_getD, List.getElem?_append_right (le_refl acc.length)]
      simp
    · rw [initGo]
      exact ih (acc ++ [weightedRandomPick (tape acc.length) pixels
        (minDistancesToCenters pixels acc)]) c
        (by rw [List.length_append]; simpa using hc)
        (by rw [List.length_append]; simp; omega)

theorem kMeansPlusPlusInit_getD_zero (tape : ℕ → ℚ) (pixels : List RGB) (k : ℕ) :
    (kMeansPlusPlusInit tape pixels k).getD 0 default =
      pixels.getD (jsFloorIdx (tape 0) pixels.length) default := by
  have htake : (kMeansPlusPlusInit tape pixels k).take 1 =
      [pixels.getD (jsFloorIdx (tape 0) pixels.length) default] := by
    rw [kMeansPlusPlusInit, initGo_take_le tape pixels _ _ 1 (by simp)]
    rfl
  rw [getD_eq_of_take_succ htake]
  rfl

theorem kMeansPlusPlusInit_getD_succ (tape : ℕ → ℚ) (pixels : List RGB) (k c : ℕ)
    (h1 : 1 ≤ c) (h2 : c < k) :
    (kMeansPlusPlusInit tape pixels k).getD c default =
      weightedRandomPick (tape c) pixels
        (minDistancesToCenters pixels ((kMeansPlusPlusInit tape pixels k).take c)) := by
  rw [kMeansPlusPlusInit]
  exact initGo_getD_step tape pixels (k - 1) _ c (by simpa using h1)
    (by simp; omega)

theorem weightedRandomPick_characterization (t : ℚ) (ps : List RGB) (ds : List ℤ)
    (hne : ps ≠ []) (hlen : ds.length = ps.length) (h0 : 0 ≤ t) (h1 : t < 1) :
    (ds.sum = 0 →
      weightedRandomPick t ps ds = ps.getD (jsFloorIdx t ps.length) default ∧
        jsFloorIdx t ps.length < ps.length) ∧
    (0 < ds.sum → ∃ i, ∃ hi : i < ps.length,
      weightedRandomPick t ps ds = ps.get ⟨i, hi⟩ ∧
        t * ((ds.sum : ℤ) : ℚ) ≤ ((ds.map (fun d => (Int.cast d : ℚ))).take (i + 1)).sum ∧
        ∀ j < i, ((ds.map (fun d => (Int.cast d : ℚ))).take (j + 1)).sum <
          t * ((ds.sum : ℤ) : ℚ)) := by
  constructor
  · intro hz
    refine ⟨?_, jsFloorIdx_lt t ps.length h0 h1 (List.length_pos.mpr hne)⟩
    unfold weightedRandomPick
    rw [if_pos hz]
  · intro hpos
    have htotQ : (0 : ℚ) < ((ds.sum : ℤ) : ℚ) := by exact_mod_cast hpos
    have hsome : (pickGo ps (ds.map (fun d => (Int.cast d : ℚ)))
        (t * ((ds.sum : ℤ) : ℚ))).isSome := by
      apply pickGo_isSome
      · rw [List.length_map]; exact hlen.symm
      · exact mul_nonneg h0 (le_of_lt htotQ)
      · rw [castSum]
        exact mul_lt_of_lt_one_left htotQ h1
    cases hp : pickGo ps (ds.map (fun d => (Int.cast d : ℚ))) (t * ((ds.sum : ℤ) : ℚ)) with
    | none => rw [hp] at hsome; simp at hsome
    | some p =>
      obtain ⟨i, hi, hpi, hle, hmin⟩ := pickGo_least ps _ _ p hp
      refine ⟨i, hi, ?_, hle, hmin⟩
      unfold weightedRandomPick
      rw [if_neg (by omega), hp, ← hpi]

/-- C6: the initializer returns exactly `k` centers, each a copy of some
pixel; the first is the pixel at the uniform random index
`Math.floor(t0 * n)`; each subsequent center is a distance-weighted pick
against the centers chosen so far, where the weighted pick selects the
first pixel whose cumulative weight reaches the draw `t * totalWeight`
(subtract-until-non-positive), and falls back to a uniform random pixel
when the total weight is zero. -/
theorem kMeansPlusPlusInit_spec (tape : ℕ → ℚ) (pixels : List RGB) (k : ℕ)
    (hT : validTape tape) (hne : pixels ≠ []) (hk1 : 1 ≤ k) (hkn : k ≤ pixels.length) :
    (kMeansPlusPlusInit tape pixels k).length = k ∧
      (∀ c ∈ kMeansPlusPlusInit tape pixels k, c ∈ pixels) ∧
      ((kMeansPlusPlusInit tape pixels k).getD 0 default =
        pixels.getD (jsFloorIdx (tape 0) pixels.length) default ∧
        jsFloorIdx (tape 0) pixels.length < pixels.length) ∧
      (∀ c, 1 ≤ c → c < k →
        (kMeansPlusPlusInit tape pixels k).getD c default =
          weightedRandomPick (tape c) pixels
            (minDistancesToCenters pixels ((kMeansPlusPlusInit tape pixels k).take c))) ∧
      (∀ (t : ℚ) (ds : List ℤ), 0 ≤ t → t < 1 → ds.length = pixels.length →
        (ds.sum = 0 →
          weightedRandomPick t pixels ds =
            pixels.getD (jsFloorIdx t pixels.length) default) ∧
        (0 < ds.sum → ∃ i, ∃ hi : i < pixels.length,
          weightedRandomPick t pixels ds = pixels.get ⟨i, hi⟩ ∧
            t * ((ds.sum : ℤ) : ℚ) ≤
              ((ds.map (fun d => (Int.cast d : ℚ))).take (i + 1)).sum ∧
            ∀ j < i, ((ds.map (fun d => (Int.cast d : ℚ))).take (j + 1)).sum <
              t * ((ds.sum : ℤ) : ℚ))) := by
  refine ⟨kMeansPlusPlusInit_length tape pixels k hk1,
    kMeansPlusPlusInit_mem tape pixels k hT hne,
    ⟨kMeansPlusPlusInit_getD_zero tape pixels k,
      jsFloorIdx_lt (tape 0) pixels.length (hT 0).1 (hT 0).2 (List.length_pos.mpr hne)⟩,
    fun c hc1 hc2 => kMeansPlusPlusInit_getD_succ tape pixels k c hc1 hc2,
    fun t ds ht0 ht1 hdl => ?_⟩
  have := weightedRandomPick_characterization t pixels ds hne hdl ht0 ht1
  exact ⟨fun hz => (this.1 hz).1, this.2⟩

/-- Witness for C6 at a concrete input. -/
theorem kMeansPlusPlusInit_spec_witness :
    (kMeansPlusPlusInit (fun _ => 0) [(⟨0, 0, 0⟩ : RGB), ⟨1, 1, 1⟩] 2).length = 2 ∧
      (∀ c ∈ kMeansPlusPlusInit (fun _ => 0) [(⟨0, 0, 0⟩ : RGB), ⟨1, 1, 1⟩] 2,
        c ∈ [(⟨0, 0, 0⟩ : RGB), ⟨1, 1, 1⟩]) ∧
      ((kMeansPlusPlusInit (fun _ => 0) [(⟨0, 0, 0⟩ : RGB), ⟨1, 1, 1⟩] 2).getD 0 default =
        ([(⟨0, 0, 0⟩ : RGB), ⟨1, 1, 1⟩] : List RGB).getD
          (jsFloorIdx ((fun _ => (0 : ℚ)) 0) ([(⟨0, 0, 0⟩ : RGB), ⟨1, 1, 1⟩] : List RGB).length)
          default ∧
        jsFloorIdx ((fun _ => (0 : ℚ)) 0) ([(⟨0, 0, 0⟩ : RGB), ⟨1, 1, 1⟩] : List RGB).length <
          ([(⟨0, 0, 0⟩ : RGB), ⟨1, 1, 1⟩] : List RGB).length) ∧
      (∀ c, 1 ≤ c → c < 2 →
        (kMeansPlusPlusInit (fun _ => 0) [(⟨0, 0, 0⟩ : RGB), ⟨1, 1, 1⟩] 2).getD c default =
          weightedRandomPick ((fun _ => (0 : ℚ)) c) [(⟨0, 0, 0⟩ : RGB), ⟨1, 1, 1⟩]
            (minDistancesToCenters [(⟨0, 0, 0⟩ : RGB), ⟨1, 1, 1⟩]
              ((kMeansPlusPlusInit (fun _ => 0) [(⟨0, 0, 0⟩ : RGB), ⟨1, 1, 1⟩] 2).take c))) ∧
      (∀ (t : ℚ) (ds : List ℤ), 0 ≤ t → t < 1 →
        ds.length = ([(⟨0, 0, 0⟩ : RGB), ⟨1, 1, 1⟩] : List RGB).length →
        (ds.sum = 0 →
          weightedRandomPick t [(⟨0, 0, 0⟩ : RGB), ⟨1, 1, 1⟩] ds =
            ([(⟨0, 0, 0⟩ : RGB), ⟨1, 1, 1⟩] : List RGB).getD
              (jsFloorIdx t ([(⟨0, 0, 0⟩ : RGB), ⟨1, 1, 1⟩] : List RGB).length) default) ∧
        (0 < ds.sum → ∃ i, ∃ hi : i < ([(⟨0, 0, 0⟩ : RGB), ⟨1, 1, 1⟩] : List RGB).length,
          weightedRandomPick t [(⟨0, 0, 0⟩ : RGB), ⟨1, 1, 1⟩] ds =
            ([(⟨0, 0, 0⟩ : RGB), ⟨1, 1, 1⟩] : List RGB).get ⟨i, hi⟩ ∧
            t * ((ds.sum : ℤ) : ℚ) ≤
              ((ds.map (fun d => (Int.cast d : ℚ))).take (i + 1)).sum ∧
            ∀ j < i, ((ds.map (fun d => (Int.cast d : ℚ))).take (j + 1)).sum <
              t * ((ds.sum : ℤ) : ℚ))) :=
  kMeansPlusPlusInit_spec (fun _ => 0) [⟨0, 0, 0⟩, ⟨1, 1, 1⟩] 2
    (fun n => ⟨le_refl 0, by norm_num⟩) (by simp) (by omega) (by simp)

/-! ### The 4-pixel scenario -/

theorem jsRound_div_eq (a : ℤ) (b : ℕ) (hb : 0 < b) :
    jsRound ((a : ℚ) / (b : ℚ)) = (2 * a + b) / (2 * (b : ℤ)) := by
  have hbq : ((b : ℕ) : ℚ) ≠ 0 := by
    exact_mod_cast Nat.pos_iff_ne_zero.mp hb
  have key : (a : ℚ) / (b : ℚ) + 1 / 2 =
      (((2 * a + b : ℤ) : ℤ) : ℚ) / (((2 * b : ℕ) : ℕ) : ℚ) := by
    push_cast
    field_simp
    ring
  rw [jsRound, key, Rat.floor_intCast_div_natCast]
  congr 1

theorem roundedMeanZ_eq (s : RGB) (n : ℕ) (hn : 0 < n) :
    roundedMean s n = roundedMeanZ s n := by
  unfold roundedMean roundedMeanZ
  rw [jsRound_div_eq s.r n hn, jsRound_div_eq s.g n hn, jsRound_div_eq s.b n hn]

theorem updateCentersZ_eq (pixels : List RGB) (asg sizes : List ℕ) (oldC : List RGB)
    (k : ℕ) : updateCenters pixels asg sizes oldC k = updateCentersZ pixels asg sizes oldC k := by
  unfold updateCenters updateCentersZ
  apply List.map_congr_left
  intro is _
  by_cases hpos : 0 < sizes.getD is.1 0
  · rw [if_pos hpos, if_pos hpos, roundedMeanZ_eq _ _ hpos]
  · rw [if_neg hpos, if_neg hpos]

theorem kMeansLoopZ_eq (pixels : List RGB) (k : ℕ) :
    ∀ (fuel : ℕ) (c0 : List RGB) (s0 : List ℕ),
      kMeansLoop pixels k fuel c0 s0 = kMeansLoopZ pixels k fuel c0 s0 := by
  intro fuel
  induction fuel with
  | zero => intro c0 s0; rfl
  | succ n ih =>
    intro c0 s0
    simp only [kMeansLoop, kMeansLoopZ, updateCentersZ_eq, ih]

theorem mergeSortPair {α : Type} (le : α → α → Bool)
    (htr : ∀ a b c : α, le a b = true → le b c = true → le a c = true)
    (hto : ∀ a b : α, (le a b || le b a) = true)
    (a b : α) (hab : le a b = true) : [a, b].mergeSort le = [a, b] := by
  have hsub := List.mergeSort_stable_pair htr hto hab (List.Sublist.refl [a, b])
  exact (List.Sublist.eq_of_length hsub
    (by rw [(List.mergeSort_perm [a, b] le).length_eq])).symm

theorem toFixed1_half_percent :
    toFixed1 ((((2 : ℕ) : ℚ) / ((4 : ℕ) : ℚ)) * 100) = "50.0" := by
  have h : Int.floor (((((2 : ℕ) : ℚ) / ((4 : ℕ) : ℚ)) * 100) * 10 + 1 / 2) = 500 := by
    push_cast
    norm_num
  simp only [toFixed1, h]
  decide

theorem rank_format_fifty (c0 c1 : RGB) :
    formatResults (rankClusters [c0, c1] [2, 2] 4) =
      [⟨rgbToHex c0.r c0.g c0.b, rgbString c0.r c0.g c0.b, c0.r, c0.g, c0.b, "50.0"⟩,
        ⟨rgbToHex c1.r c1.g c1.b, rgbString c1.r c1.g c1.b, c1.r, c1.g, c1.b, "50.0"⟩] := by
  have hp : percentGE
      (⟨c0, (((2 : ℕ) : ℚ) / ((4 : ℕ) : ℚ)) * 100⟩ : ClusterShare)
      (⟨c1, (((2 : ℕ) : ℚ) / ((4 : ℕ) : ℚ)) * 100⟩ : ClusterShare) = true :=
    decide_eq_true (le_refl _)
  have hrank : rankClusters [c0, c1] [2, 2] 4 =
      [⟨c0, (((2 : ℕ) : ℚ) / ((4 : ℕ) : ℚ)) * 100⟩,
        ⟨c1, (((2 : ℕ) : ℚ) / ((4 : ℕ) : ℚ)) * 100⟩] := by
    show List.mergeSort
      [(⟨c0, (((2 : ℕ) : ℚ) / ((4 : ℕ) : ℚ)) * 100⟩ : ClusterShare),
        ⟨c1, (((2 : ℕ) : ℚ) / ((4 : ℕ) : ℚ)) * 100⟩] percentGE = _
    exact mergeSortPair percentGE percentGE_trans percentGE_total _ _ hp
  rw [hrank]
  show [(⟨rgbToHex c0.r c0.g c0.b, rgbString c0.r c0.g c0.b, c0.r, c0.g, c0.b,
      toFixed1 ((((2 : ℕ) : ℚ) / ((4 : ℕ) : ℚ)) * 100)⟩ : ColorResult),
    ⟨rgbToHex c1.r c1.g c1.b, rgbString c1.r c1.g c1.b, c1.r, c1.g, c1.b,
      toFixed1 ((((2 : ℕ) : ℚ) / ((4 : ℕ) : ℚ)) * 100)⟩] = _
  rw [toFixed1_half_percent]

theorem second_of_black (t : ℚ) (h0 : 0 ≤ t) (h1 : t < 1) :
    weightedRandomPick t pix4 (minDistancesToCenters pix4 [⟨0, 0, 0⟩]) = ⟨0, 0, 0⟩ ∨
      weightedRandomPick t pix4 (minDistancesToCenters pix4 [⟨0, 0, 0⟩]) =
        ⟨255, 255, 255⟩ := by
  have hd : minDistancesToCenters pix4 [⟨0, 0, 0⟩] = [0, 0, 195075, 195075] := by decide
  have hsum : ([0, 0, 195075, 195075] : List ℤ).sum = 390150 := by decide
  have hmap : ([0, 0, 195075, 195075] : List ℤ).map (fun d => (Int.cast d : ℚ)) =
      [0, 0, 195075, 195075] := by norm_num
  rw [hd]
  simp only [weightedRandomPick, hsum, hmap]
  rw [if_neg (by decide : ¬(390150 : ℤ) = 0)]
  have hu0 : 0 ≤ t * ((390150 : ℤ) : ℚ) := mul_nonneg h0 (by norm_num)
  have hu1 : t * ((390150 : ℤ) : ℚ) < 390150 := by
    have : ((390150 : ℤ) : ℚ) = 390150 := by norm_num
    rw [this]
    exact mul_lt_of_lt_one_left (by norm_num) h1
  simp only [pickGo, sub_zero]
  by_cases hc1 : t * ((390150 : ℤ) : ℚ) ≤ 0
  · rw [if_pos hc1]
    left
    rfl
  · rw [if_neg hc1, if_neg hc1]
    by_cases hc3 : t * ((390150 : ℤ) : ℚ) - 195075 ≤ 0
    · rw [if_pos hc3]
      right
      rfl
    · rw [if_neg hc3, if_pos (by linarith : t * ((390150 : ℤ) : ℚ) - 195075 - 195075 ≤ 0)]
      right
      rfl

theorem second_of_white (t : ℚ) (h0 : 0 ≤ t) (h1 : t < 1) :
    weightedRandomPick t pix4 (minDistancesToCenters pix4 [⟨255, 255, 255⟩]) =
      ⟨0, 0, 0⟩ := by
  have hd : minDistancesToCenters pix4 [⟨255, 255, 255⟩] = [195075, 195075, 0, 0] := by
    decide
  have hsum : ([195075, 195075, 0, 0] : List ℤ).sum = 390150 := by decide
  have hmap : ([195075, 195075, 0, 0] : List ℤ).map (fun d => (Int.cast d : ℚ)) =
      [195075, 195075, 0, 0] := by norm_num
  rw [hd]
  simp only [weightedRandomPick, hsum, hmap]
  rw [if_neg (by decide : ¬(390150 : ℤ) = 0)]
  have hu1 : t * ((390150 : ℤ) : ℚ) < 390150 := by
    have : ((390150 : ℤ) : ℚ) = 390150 := by norm_num
    rw [this]
    exact mul_lt_of_lt_one_left (by norm_num) h1
  simp only [pickGo]
  by_cases hc1 : t * ((390150 : ℤ) : ℚ) - 195075 ≤ 0
  · rw [if_pos hc1]
  · rw [if_neg hc1, if_pos (by linarith : t * ((390150 : ℤ) : ℚ) - 195075 - 195075 ≤ 0)]

theorem loop_case_BW : kMeansLoop pix4 2 20 [⟨0, 0, 0⟩, ⟨255, 255, 255⟩] [] =
    ([⟨0, 0, 0⟩, ⟨255, 255, 255⟩], [2, 2], 1) := by
  rw [kMeansLoopZ_eq]
  decide

theorem loop_case_WB : kMeansLoop pix4 2 20 [⟨255, 255, 255⟩, ⟨0, 0, 0⟩] [] =
    ([⟨255, 255, 255⟩, ⟨0, 0, 0⟩], [2, 2], 1) := by
  rw [kMeansLoopZ_eq]
  decide

theorem loop_case_BB : kMeansLoop pix4 2 20 [⟨0, 0, 0⟩, ⟨0, 0, 0⟩] [] =
    ([⟨255, 255, 255⟩, ⟨0, 0, 0⟩], [2, 2], 3) := by
  rw [kMeansLoopZ_eq]
  decide

theorem loop_case_WW : kMeansLoop pix4 2 20 [⟨255, 255, 255⟩, ⟨255, 255, 255⟩] [] =
    ([⟨0, 0, 0⟩, ⟨255, 255, 255⟩], [2, 2], 3) := by
  rw [kMeansLoopZ_eq]
  decide

/-- C9: on two black and two white pixels with `colorCount = 2` and
`maxIterations = 20`, every possible sequence of random draws converges
(before exhausting the 20 iterations) to the centers `(0,0,0)` and
`(255,255,255)`, each reported at `50.0%`. -/
theorem four_pixel_scenario (tape : ℕ → ℚ) (hT : validTape tape) :
    (extractColorsCore tape pix4 2 20 = [blackResult, whiteResult] ∨
      extractColorsCore tape pix4 2 20 = [whiteResult, blackResult]) ∧
    (kMeansLoop pix4 2 20 (kMeansPlusPlusInit tape pix4 2) []).2.2 < 20 := by
  have hne : pix4 ≠ [] := by simp [pix4]
  have hlen : pix4.length = 4 := rfl
  have hmin2 : min 2 pix4.length = 2 := by rw [hlen]; decide
  have hcl : kMeansClustering tape pix4 2 20 =
      rankClusters (kMeansLoop pix4 2 20 (kMeansPlusPlusInit tape pix4 2) []).1
        (kMeansLoop pix4 2 20 (kMeansPlusPlusInit tape pix4 2) []).2.1 4 := by
    rw [kMeansClustering_eq tape pix4 2 20 hne, hmin2, hlen]
  have hinit : kMeansPlusPlusInit tape pix4 2 =
      [pix4.getD (jsFloorIdx (tape 0) pix4.length) default,
        weightedRandomPick (tape 1) pix4
          (minDistancesToCenters pix4
            [pix4.getD (jsFloorIdx (tape 0) pix4.length) default])] := rfl
  have hidx : jsFloorIdx (tape 0) pix4.length < 4 := by
    have h := jsFloorIdx_lt (tape 0) pix4.length (hT 0).1 (hT 0).2 (by simp [pix4])
    rw [hlen] at h
    exact h
  have hfirst : pix4.getD (jsFloorIdx (tape 0) pix4.length) default = ⟨0, 0, 0⟩ ∨
      pix4.getD (jsFloorIdx (tape 0) pix4.length) default = ⟨255, 255, 255⟩ := by
    set i := jsFloorIdx (tape 0) pix4.length with hidef
    clear_value i
    interval_cases i
    · left; rfl
    · left; rfl
    · right; rfl
    · right; rfl
  rcases hfirst with hf | hf
  · rcases second_of_black (tape 1) (hT 1).1 (hT 1).2 with hs | hs
    · -- both initial centers black
      have hi2 : kMeansPlusPlusInit tape pix4 2 = [⟨0, 0, 0⟩, ⟨0, 0, 0⟩] := by
        rw [hinit, hf, hs]
      constructor
      · right
        show formatResults (kMeansClustering tape pix4 2 20) = [whiteResult, blackResult]
        rw [hcl, hi2, loop_case_BB]
        show formatResults (rankClusters [⟨255, 255, 255⟩, ⟨0, 0, 0⟩] [2, 2] 4) =
          [whiteResult, blackResult]
        rw [rank_format_fifty]
        decide
      · rw [hi2, loop_case_BB]
        decide
    · -- black then white
      have hi2 : kMeansPlusPlusInit tape pix4 2 = [⟨0, 0, 0⟩, ⟨255, 255, 255⟩] := by
        rw [hinit, hf, hs]
      constructor
      · left
        show formatResults (kMeansClustering tape pix4 2 20) = [blackResult, whiteResult]
        rw [hcl, hi2, loop_case_BW]
        show formatResults (rankClusters [⟨0, 0, 0⟩, ⟨255, 255, 255⟩] [2, 2] 4) =
          [blackResult, whiteResult]
        rw [rank_format_fifty]
        decide
      · rw [hi2, loop_case_BW]
        decide
  · -- first center white: second is always black
    have hs := second_of_white (tape 1) (hT 1).1 (hT 1).2
    have hi2 : kMeansPlusPlusInit tape pix4 2 = [⟨255, 255, 255⟩, ⟨0, 0, 0⟩] := by
      rw [hinit, hf, hs]
    constructor
    · right
      show formatResults (kMeansClustering tape pix4 2 20) = [whiteResult, blackResult]
      rw [hcl, hi2, loop_case_WB]
      show formatResults (rankClusters [⟨255, 255, 255⟩, ⟨0, 0, 0⟩] [2, 2] 4) =
        [whiteResult, blackResult]
      rw [rank_format_fifty]
      decide
    · rw [hi2, loop_case_WB]
      decide

/-- Witness for C9 at a concrete tape. -/
theorem four_pixel_scenario_witness :
    (extractColorsCore (fun _ => 0) pix4 2 20 = [blackResult, whiteResult] ∨
      extractColorsCore (fun _ => 0) pix4 2 20 = [whiteResult, blackResult]) ∧
    (kMeansLoop pix4 2 20 (kMeansPlusPlusInit (fun _ => 0) pix4 2) []).2.2 < 20 :=
  four_pixel_scenario (fun _ => 0) (fun n => ⟨le_refl 0, by norm_num⟩)
